import Mathlib

/-!
Verification development for the fuzzy discretization and fuzzy-rule
inference core of the repository (files `flore/fuzzy/_base.py`,
`teacher/tree/rule.py`, `teacher/tree/_voting.py`).

Numeric values (Python floats) are modelled as elements of a linear
ordered field: the generic definitions are shared between `ℚ` (used to
evaluate concrete inputs) and `ℝ` (used for the entropy computations,
which involve `log2`).  Class labels are modelled as natural numbers.
Python dictionaries are modelled as association lists in key-insertion
order, fallible Python code (uncaught exceptions) as `Option`/`Except`.
-/

namespace Teacher

section FuzzySetBuilder

variable {α : Type} [LinearOrderedField α]

/-- Triangular membership function of the external `skfuzzy` library
(`fuzz.trimf(x, [a, b, c])`, with `a ≤ b ≤ c`), as called by
`get_fuzzy_triangle`: degree `(x - a) / (b - a)` on `a < x < b`,
`(c - x) / (c - b)` on `b < x < c`, `1` at `x = b` and `0` elsewhere
(the library skips the rising edge when `a = b` and the falling edge
when `b = c`, which is what the guarded conditions already do). -/
def trimf (a b c x : α) : α :=
  if x = b then 1
  else if a < x ∧ x < b then (x - a) / (b - a)
  else if b < x ∧ x < c then (c - x) / (c - b)
  else 0

/-- Interior and final fuzzy sets of `get_fuzzy_triangle`: given the peak
`prev` of the previous set and the remaining `(label, peak)` divisions,
produce one full triangle `trimf p_{i-1} p_i p_{i+1}` per interior
division and the closing half triangle `trimf p_{K-1} p_K p_K` for the
last division. -/
def restSets (var : List α) : α → List (String × α) → List (String × List α)
  | prev, [(lK, pK)] => [(lK, var.map (trimf prev pK pK))]
  | prev, (li, pi) :: (lj, pj) :: rest =>
      (li, var.map (trimf prev pi pj)) :: restSets var pi ((lj, pj) :: rest)
  | _, [] => []

/-- `get_fuzzy_triangle(variable, divisions)` of `flore/fuzzy/_base.py`:
mapping (association list in insertion order) from each division label to
the array of membership degrees of the elements of `var`; the first set
is the half triangle `trimf p0 p0 p1`, interior sets are full triangles,
the last set is the half triangle `trimf p_{K-1} p_K p_K`.  On fewer than
two divisions the source raises `IndexError`; that precondition violation
is modelled by the empty result. -/
def get_fuzzy_triangle (var : List α) (divisions : List (String × α)) :
    List (String × List α) :=
  match divisions with
  | (l0, p0) :: (l1, p1) :: rest =>
      (l0, var.map (trimf p0 p0 p1)) :: restSets var p0 ((l1, p1) :: rest)
  | _ => []

theorem trimf_nonneg {a b c x : α} : 0 ≤ trimf a b c x := by
  unfold trimf
  split
  · exact zero_le_one
  · split
    · rename_i h
      rcases h with ⟨h1, h2⟩
      exact div_nonneg (by linarith) (by linarith)
    · split
      · rename_i h
        rcases h with ⟨h1, h2⟩
        exact div_nonneg (by linarith) (by linarith)
      · exact le_refl 0

theorem trimf_le_one {a b c x : α} : trimf a b c x ≤ 1 := by
  unfold trimf
  split
  · exact le_refl 1
  · split
    · rename_i h
      rcases h with ⟨h1, h2⟩
      rw [div_le_one (by linarith)]
      linarith
    · split
      · rename_i h
        rcases h with ⟨h1, h2⟩
        rw [div_le_one (by linarith)]
        linarith
      · exact zero_le_one

theorem trimf_of_le_left {a b c x : α} (hxb : x < b) (hxa : x ≤ a) :
    trimf a b c x = 0 := by
  unfold trimf
  rw [if_neg (by exact fun h => absurd h (ne_of_lt hxb)),
      if_neg (by rintro ⟨h1, _⟩; linarith),
      if_neg (by rintro ⟨h1, _⟩; linarith)]

theorem trimf_of_ge_right {a b c x : α} (hbx : b < x) (hcx : c ≤ x) :
    trimf a b c x = 0 := by
  unfold trimf
  rw [if_neg (by exact fun h => absurd h.symm (ne_of_lt hbx)),
      if_neg (by rintro ⟨_, h2⟩; linarith),
      if_neg (by rintro ⟨_, h2⟩; linarith)]

/-- Sum of the membership degrees of a single value across all the fuzzy
sets of a triangle built over the one-element array of that value. -/
def degreeSumAt (sets : List (String × List α)) : α :=
  (sets.map (fun s => s.2.sum)).sum

/-- Falling edge of the fuzzy set peaking at `prev` towards the next peak
`b`: the amount of membership that the sets at peaks below `b` still owe
at a value `v`. -/
def fallEdge (prev b v : α) : α :=
  if v = prev then 1
  else if prev < v ∧ v < b then (b - v) / (b - prev)
  else 0

theorem restSets_sum_of_le :
    ∀ (sets : List (String × α)) (prev v : α),
      List.Chain (· < ·) prev (sets.map Prod.snd) → v ≤ prev →
      degreeSumAt (restSets [v] prev sets) = 0
  | [], _, _, _, _ => by simp [restSets, degreeSumAt]
  | [(lK, pK)], prev, v, hch, hv => by
      simp only [List.map, List.chain_cons] at hch
      simp [restSets, degreeSumAt,
        trimf_of_le_left (lt_of_le_of_lt hv hch.1) hv]
  | (li, pi) :: (lj, pj) :: rest, prev, v, hch, hv => by
      simp only [List.map, List.chain_cons] at hch
      have ih := restSets_sum_of_le ((lj, pj) :: rest) pi v
        (by simpa using hch.2) (le_of_lt (lt_of_le_of_lt hv hch.1))
      simp only [restSets, degreeSumAt, List.map, List.sum_cons] at ih ⊢
      rw [trimf_of_le_left (lt_of_le_of_lt hv hch.1) hv, ih]
      simp

theorem trimf_half_eq_fallEdge {prev b c v : α} (hpb : prev < b)
    (hv0 : prev ≤ v) (hvb : v ≤ b) :
    trimf prev b c v = 1 - fallEdge prev b v := by
  rcases eq_or_lt_of_le hv0 with hv | hv
  · rw [← hv, trimf_of_le_left hpb (le_refl prev)]
    simp [fallEdge]
  · rcases eq_or_lt_of_le hvb with hvi | hvi
    · subst hvi
      unfold trimf fallEdge
      rw [if_pos rfl, if_neg (ne_of_gt hv),
          if_neg (by rintro ⟨_, h2⟩; exact absurd h2 (lt_irrefl v))]
      ring
    · unfold trimf fallEdge
      rw [if_neg (ne_of_lt hvi), if_pos ⟨hv, hvi⟩, if_neg (ne_of_gt hv),
          if_pos ⟨hv, hvi⟩]
      have hne : b - prev ≠ 0 := ne_of_gt (by linarith)
      field_simp

theorem restSets_sum_eq :
    ∀ (tail : List (String × α)) (lh : String) (ph prev v pK : α),
      List.Chain (· < ·) prev (ph :: tail.map Prod.snd) →
      (ph :: tail.map Prod.snd).getLast? = some pK →
      prev ≤ v → v ≤ pK →
      degreeSumAt (restSets [v] prev ((lh, ph) :: tail)) = 1 - fallEdge prev ph v
  | [], lh, ph, prev, v, pK, hch, hlast, hv0, hvK => by
      simp only [List.map, List.chain_cons] at hch
      simp only [List.map_nil, List.getLast?_singleton, Option.some_inj] at hlast
      subst hlast
      have hpp : prev < ph := hch.1
      simp only [restSets, degreeSumAt, List.map_cons, List.map_nil, List.sum_cons,
        List.sum_nil, List.sum_singleton]
      rw [trimf_half_eq_fallEdge hpp hv0 hvK]
      ring
  | (lj, pj) :: rest, lh, ph, prev, v, pK, hch, hlast, hv0, hvK => by
      simp only [List.map, List.chain_cons] at hch
      have hppi : prev < ph := hch.1
      have hpipj : ph < pj := hch.2.1
      have hchrest := hch.2.2
      have hlast2 : (pj :: rest.map Prod.snd).getLast? = some pK := by
        rw [← hlast, List.map_cons, List.getLast?_cons_cons]
      simp only [restSets, degreeSumAt, List.map_cons, List.map_nil, List.sum_cons,
        List.sum_nil, List.sum_singleton]
      rcases le_or_lt v ph with hvpi | hvpi
      · have hz := restSets_sum_of_le ((lj, pj) :: rest) ph v
          (by simp only [List.map_cons, List.chain_cons]; exact ⟨hpipj, hchrest⟩) hvpi
        simp only [restSets, degreeSumAt, List.map_cons, List.map_nil, List.sum_cons,
          List.sum_nil] at hz
        rw [hz]
        rw [trimf_half_eq_fallEdge hppi hv0 hvpi]
        ring
      · have ih := restSets_sum_eq rest lj pj ph v pK
          (by simp only [List.map_cons, List.chain_cons]; exact ⟨hpipj, hchrest⟩)
          hlast2 (le_of_lt hvpi) hvK
        simp only [restSets, degreeSumAt, List.map_cons, List.map_nil, List.sum_cons,
          List.sum_nil, List.sum_singleton] at ih
        rw [ih]
        have hfall0 : fallEdge prev ph v = 0 := by
          unfold fallEdge
          rw [if_neg (by intro h; subst h; exact absurd hvpi (not_lt_of_le (le_of_lt hppi))),
              if_neg (by rintro ⟨_, h2⟩; exact absurd hvpi (not_lt_of_le (le_of_lt h2)))]
        have hedge : trimf prev ph pj v = fallEdge ph pj v := by
          unfold trimf fallEdge
          rw [if_neg (ne_of_gt hvpi), if_neg (ne_of_gt hvpi),
              if_neg (by rintro ⟨_, h2⟩; exact absurd hvpi (not_lt_of_le (le_of_lt h2)))]
        rw [hedge, hfall0]
        ring

theorem trimf_first_eq_fallEdge {p0 p1 v : α} (hv0 : p0 ≤ v) :
    trimf p0 p0 p1 v = fallEdge p0 p1 v := by
  rcases eq_or_lt_of_le hv0 with hv | hv
  · rw [← hv]
    unfold trimf fallEdge
    rw [if_pos rfl, if_pos rfl]
  · unfold trimf fallEdge
    rw [if_neg (ne_of_gt hv), if_neg (ne_of_gt hv),
        if_neg (by rintro ⟨_, h2⟩; exact absurd h2 (lt_asymm hv))]

theorem restSets_forall_bounds :
    ∀ (sets : List (String × α)) (var : List α) (prev : α),
      ∀ pair ∈ restSets var prev sets, ∀ d ∈ pair.2, 0 ≤ d ∧ d ≤ 1
  | [], var, prev => by simp [restSets]
  | [(lK, pK)], var, prev => by
      intro pair hpair d hd
      simp only [restSets, List.mem_singleton] at hpair
      subst hpair
      simp only [List.mem_map] at hd
      obtain ⟨x, _, hx⟩ := hd
      exact hx ▸ ⟨trimf_nonneg, trimf_le_one⟩
  | (li, pi) :: (lj, pj) :: rest, var, prev => by
      intro pair hpair d hd
      simp only [restSets, List.mem_cons] at hpair
      rcases hpair with h | h
      · subst h
        simp only [List.mem_map] at hd
        obtain ⟨x, _, hx⟩ := hd
        exact hx ▸ ⟨trimf_nonneg, trimf_le_one⟩
      · exact restSets_forall_bounds ((lj, pj) :: rest) var pi pair h d hd

theorem get_fuzzy_triangle_bounds (var : List α) (divisions : List (String × α)) :
    ∀ pair ∈ get_fuzzy_triangle var divisions, ∀ d ∈ pair.2, 0 ≤ d ∧ d ≤ 1 := by
  intro pair hpair d hd
  match divisions with
  | [] => simp [get_fuzzy_triangle] at hpair
  | [_] => simp [get_fuzzy_triangle] at hpair
  | (l0, p0) :: (l1, p1) :: rest =>
    simp only [get_fuzzy_triangle, List.mem_cons] at hpair
    rcases hpair with h | h
    · subst h
      simp only [List.mem_map] at hd
      obtain ⟨x, _, hx⟩ := hd
      exact hx ▸ ⟨trimf_nonneg, trimf_le_one⟩
    · exact restSets_forall_bounds ((l1, p1) :: rest) var p0 pair h d hd

theorem get_fuzzy_triangle_sum_one (l0 l1 : String) (p0 p1 pK v : α)
    (rest : List (String × α))
    (hch : List.Chain (· < ·) p0 (p1 :: rest.map Prod.snd))
    (hlast : (p1 :: rest.map Prod.snd).getLast? = some pK)
    (hv0 : p0 ≤ v) (hvK : v ≤ pK) :
    degreeSumAt (get_fuzzy_triangle [v] ((l0, p0) :: (l1, p1) :: rest)) = 1 := by
  simp only [List.chain_cons] at hch
  have hsum := restSets_sum_eq rest l1 p1 p0 v pK
    (by simp only [List.chain_cons]; exact ⟨hch.1, hch.2⟩) hlast hv0 hvK
  simp only [get_fuzzy_triangle, degreeSumAt, List.map_cons, List.map_nil,
    List.sum_cons, List.sum_nil] at hsum ⊢
  rw [hsum, trimf_first_eq_fallEdge hv0]
  ring

end FuzzySetBuilder

section EntropyEngine

/-- Inner loop of `fuzzy_entropy`: sum of the membership degrees of the
elements whose crisp class label equals `value` (the arrays are walked in
parallel, as the source indexes `class_variable[i]` for `i` below
`len(triangle)`). -/
def classFuzzyCard (triangle : List ℝ) (class_var : List ℕ) (value : ℕ) : ℝ :=
  (((triangle.zip class_var).filter (fun p => p.2 = value)).map Prod.fst).sum

/-- `fuzzy_entropy(triangle, class_variable)` of `flore/fuzzy/_base.py`:
for each distinct class value, if its class fuzzy cardinality is strictly
positive, accumulate `-r * log2 r` with
`r = class_fuzzy_cardinality / fuzzy_cardinality`, where
`fuzzy_cardinality = triangle.sum()`.  The source iterates
`np.unique(class_variable)` in sorted order; since addition is
commutative this is the sum over the finite set of distinct labels. -/
noncomputable def fuzzy_entropy (triangle : List ℝ) (class_var : List ℕ) : ℝ :=
  ∑ value ∈ class_var.toFinset,
    if 0 < classFuzzyCard triangle class_var value then
      -(classFuzzyCard triangle class_var value / triangle.sum) *
        Real.logb 2 (classFuzzyCard triangle class_var value / triangle.sum)
    else 0

/-- `weighted_fuzzy_entropy(fuzzy_triangle, class_variable)`: average of
the per-set fuzzy entropies weighted by the per-set fuzzy cardinalities,
normalized by the accumulated crisp cardinality. -/
noncomputable def weighted_fuzzy_entropy (fuzzy_triangle : List (String × List ℝ))
    (class_var : List ℕ) : ℝ :=
  (fuzzy_triangle.map (fun t => t.2.sum * fuzzy_entropy t.2 class_var)).sum /
    (fuzzy_triangle.map (fun t => t.2.sum)).sum

/-- Number of distinct classes among the elements whose membership degree
in the set is strictly positive (`len(np.unique(cv[bft > 0]))` in
`get_delta_point`). -/
noncomputable def newClassesCard (memb : List ℝ) (class_var : List ℕ) : ℕ :=
  (((memb.zip class_var).filter (fun p => 0 < p.1)).map Prod.snd).toFinset.card

/-- `get_delta_point(global_fuzzy_triangles, best_fuzzy_triangle,
class_variable)` of `flore/fuzzy/_base.py`. -/
noncomputable def get_delta_point (global_ft best_ft : List (String × List ℝ))
    (class_var : List ℕ) : ℝ :=
  let n_classes := class_var.toFinset.card
  let old_f_entropy :=
    (global_ft.map (fun t => (n_classes : ℝ) * fuzzy_entropy t.2 class_var)).sum
  let new_f_entropy :=
    (best_ft.map (fun t =>
      (newClassesCard t.2 class_var : ℝ) * fuzzy_entropy t.2 class_var)).sum
  Real.logb 2 ((3 : ℝ) ^ n_classes - 2) - (old_f_entropy - new_f_entropy)

end EntropyEngine

section Discretizer

/-- `variable.max()` of a nonempty numpy array (`0` on the empty array,
where the source raises). -/
noncomputable def max_of : List ℝ → ℝ
  | [] => 0
  | v :: vs => vs.foldl max v

/-- Candidate-point search loop of `fuzzy_partitioning`: for every point
of `var` other than `min_point` and `max_point`, build the 3-set
triangle `low@min_point, mid@point, high@max_point`, evaluate its
weighted fuzzy entropy, and keep the first strict minimizer.  `none`
models the Python initial state `best_wef = inf` surviving the loop
(no admissible candidate). -/
noncomputable def best_split (var : List ℝ) (class_var : List ℕ)
    (min_point max_point : ℝ) : Option (ℝ × ℝ × List (String × List ℝ)) :=
  (var.filter (fun p => p ≠ min_point ∧ p ≠ max_point)).foldl
    (fun best point =>
      let fuzzy_triangle :=
        get_fuzzy_triangle var [("low", min_point), ("mid", point), ("high", max_point)]
      let wef := weighted_fuzzy_entropy fuzzy_triangle class_var
      match best with
      | none => some (point, wef, fuzzy_triangle)
      | some (bp, bwef, btri) =>
          if wef < bwef then some (point, wef, fuzzy_triangle) else some (bp, bwef, btri))
    none

/-- `np.unique(points).tolist()`: the sorted list of distinct values. -/
noncomputable def np_unique (points : List ℝ) : List ℝ :=
  points.toFinset.sort (· ≤ ·)

theorem foldl_max_le {α : Type} [LinearOrder α] : ∀ (l : List α) (a : α),
    a ≤ l.foldl max a ∧ ∀ x ∈ l, x ≤ l.foldl max a
  | [], a => ⟨le_refl a, by simp⟩
  | b :: bs, a => by
      have ih := foldl_max_le bs (max a b)
      refine ⟨le_trans (le_max_left a b) ih.1, ?_⟩
      intro x hx
      rcases List.mem_cons.mp hx with h | h
      · subst h
        exact le_trans (le_max_right a x) ih.1
      · exact ih.2 x h

theorem foldl_max_mem : ∀ (l : List ℝ) (a : ℝ),
    l.foldl max a = a ∨ l.foldl max a ∈ l
  | [], _ => Or.inl rfl
  | b :: bs, a => by
      rcases foldl_max_mem bs (max a b) with h | h
      · rcases max_choice a b with h2 | h2
        · exact Or.inl (by rw [List.foldl_cons, h, h2])
        · exact Or.inr (by rw [List.foldl_cons, h, h2]; exact List.mem_cons_self b bs)
      · exact Or.inr (List.mem_cons_of_mem b (by rw [List.foldl_cons]; exact h))

theorem le_max_of {l : List ℝ} {x : ℝ} (hx : x ∈ l) : x ≤ max_of l := by
  match l with
  | [] => cases hx
  | v :: vs =>
    rcases List.mem_cons.mp hx with h | h
    · subst h
      exact (foldl_max_le vs x).1
    · exact (foldl_max_le vs v).2 x h

theorem max_of_mem {l : List ℝ} (hl : l ≠ []) : max_of l ∈ l := by
  match l with
  | [] => exact absurd rfl hl
  | v :: vs =>
    show vs.foldl max v ∈ v :: vs
    rcases foldl_max_mem vs v with h | h
    · rw [h]
      exact List.mem_cons_self v vs
    · exact List.mem_cons_of_mem v h

theorem best_split_foldl_mem :
    ∀ (cand : List ℝ) (step : Option (ℝ × ℝ × List (String × List ℝ)) → ℝ →
        Option (ℝ × ℝ × List (String × List ℝ)))
      (hstep : ∀ acc x, step acc x = acc ∨ ∃ w t, step acc x = some (x, w, t))
      (acc : Option (ℝ × ℝ × List (String × List ℝ)))
      (r : ℝ × ℝ × List (String × List ℝ)),
      cand.foldl step acc = some r → acc = some r ∨ r.1 ∈ cand
  | [], _, _, acc, r, h => Or.inl h
  | x :: xs, step, hstep, acc, r, h => by
      rw [List.foldl_cons] at h
      rcases best_split_foldl_mem xs step hstep (step acc x) r h with h2 | h2
      · rcases hstep acc x with h3 | h3
        · exact Or.inl (h3 ▸ h2)
        · obtain ⟨w, t, h3⟩ := h3
          rw [h3] at h2
          injection h2 with h2
          exact Or.inr (by rw [← h2]; exact List.mem_cons_self x xs)
      · exact Or.inr (List.mem_cons_of_mem x h2)

theorem best_split_some {var : List ℝ} {class_var : List ℕ} {mp Mp bp bwef : ℝ}
    {btri : List (String × List ℝ)}
    (h : best_split var class_var mp Mp = some (bp, bwef, btri)) :
    bp ∈ var ∧ bp ≠ mp ∧ bp ≠ Mp := by
  unfold best_split at h
  have hmem := best_split_foldl_mem _ _ (fun acc x => by
      cases acc with
      | none => exact Or.inr ⟨_, _, rfl⟩
      | some b =>
        rcases b with ⟨b1, b2, b3⟩
        by_cases hc : weighted_fuzzy_entropy
            (get_fuzzy_triangle var [("low", mp), ("mid", x), ("high", Mp)]) class_var < b2
        · exact Or.inr ⟨weighted_fuzzy_entropy
            (get_fuzzy_triangle var [("low", mp), ("mid", x), ("high", Mp)]) class_var,
            get_fuzzy_triangle var [("low", mp), ("mid", x), ("high", Mp)],
            by simp [hc]⟩
        · exact Or.inl (by simp [hc])) none (bp, bwef, btri) h
  rcases hmem with h2 | h2
  · cases h2
  · have := List.mem_filter.mp h2
    have hd := of_decide_eq_true this.2
    exact ⟨this.1, hd.1, hd.2⟩

theorem length_filter_lt {β : Type} (p : β → Bool) :
    ∀ (l : List β) (x : β), x ∈ l → p x = false → (l.filter p).length < l.length
  | a :: as, x, hx, hpx => by
      rcases List.mem_cons.mp hx with h | h
      · subst h
        rw [List.filter_cons, if_neg (by simp [hpx])]
        exact Nat.lt_succ_of_le (List.length_filter_le p as)
      · rw [List.filter_cons]
        by_cases hpa : p a
        · rw [if_pos (by simp [hpa])]
          simpa using Nat.succ_lt_succ (length_filter_lt p as x h hpx)
        · rw [if_neg (by simp [hpa])]
          exact Nat.lt_succ_of_lt (length_filter_lt p as x h hpx)

theorem exists_zip_pair :
    ∀ (l1 : List ℝ) (l2 : List ℕ) (x : ℝ),
      x ∈ l1 → l1.length ≤ l2.length → ∃ c, (x, c) ∈ l1.zip l2
  | a :: as, b :: bs, x, hx, hlen => by
      rcases List.mem_cons.mp hx with h | h
      · subst h
        exact ⟨b, List.mem_cons_self _ _⟩
      · obtain ⟨c, hc⟩ := exists_zip_pair as bs x h (by simpa using hlen)
        exact ⟨c, List.mem_cons_of_mem _ hc⟩
  | a :: as, [], x, hx, hlen => by simp at hlen
  | [], _, x, hx, _ => by cases hx

theorem left_length_lt {v0 : ℝ} {vs : List ℝ} {class_var : List ℕ} {mp Mp bp bwef : ℝ}
    {btri : List (String × List ℝ)}
    (h : best_split (v0 :: vs) class_var mp Mp = some (bp, bwef, btri))
    (hMp : Mp = max_of (v0 :: vs)) :
    (((v0 :: vs).zip class_var).filter (fun pc => pc.1 ≤ bp)).length <
      (v0 :: vs).length := by
  rcases Nat.lt_or_ge class_var.length (v0 :: vs).length with hlen | hlen
  · calc (((v0 :: vs).zip class_var).filter (fun pc => pc.1 ≤ bp)).length
        ≤ ((v0 :: vs).zip class_var).length := List.length_filter_le _ _
      _ ≤ class_var.length := by rw [List.length_zip]; exact min_le_right _ _
      _ < (v0 :: vs).length := hlen
  · obtain ⟨hbp_mem, _, hbp_ne⟩ := best_split_some h
    have hlt : bp < Mp := lt_of_le_of_ne (hMp ▸ le_max_of hbp_mem) hbp_ne
    obtain ⟨c, hc⟩ := exists_zip_pair (v0 :: vs) class_var Mp
      (hMp ▸ max_of_mem (List.cons_ne_nil v0 vs)) hlen
    have := length_filter_lt (fun pc : ℝ × ℕ => decide (pc.1 ≤ bp))
      ((v0 :: vs).zip class_var) (Mp, c) hc (by simp [not_le.mpr hlt])
    calc (((v0 :: vs).zip class_var).filter (fun pc => pc.1 ≤ bp)).length
        < ((v0 :: vs).zip class_var).length := this
      _ ≤ (v0 :: vs).length := by rw [List.length_zip]; exact min_le_left _ _

theorem right_length_lt {v0 : ℝ} {vs : List ℝ} {class_var : List ℕ} {mp Mp bp bwef : ℝ}
    {btri : List (String × List ℝ)}
    (h : best_split (v0 :: vs) class_var mp Mp = some (bp, bwef, btri)) :
    (((v0 :: vs).zip class_var).filter (fun pc => bp < pc.1)).length <
      (v0 :: vs).length := by
  rcases Nat.lt_or_ge class_var.length (v0 :: vs).length with hlen | hlen
  · calc (((v0 :: vs).zip class_var).filter (fun pc => bp < pc.1)).length
        ≤ ((v0 :: vs).zip class_var).length := List.length_filter_le _ _
      _ ≤ class_var.length := by rw [List.length_zip]; exact min_le_right _ _
      _ < (v0 :: vs).length := hlen
  · obtain ⟨hbp_mem, _, _⟩ := best_split_some h
    obtain ⟨c, hc⟩ := exists_zip_pair (v0 :: vs) class_var bp hbp_mem hlen
    have := length_filter_lt (fun pc : ℝ × ℕ => decide (bp < pc.1))
      ((v0 :: vs).zip class_var) (bp, c) hc (by simp)
    calc (((v0 :: vs).zip class_var).filter (fun pc => bp < pc.1)).length
        < ((v0 :: vs).zip class_var).length := this
      _ ≤ (v0 :: vs).length := by rw [List.length_zip]; exact min_le_left _ _

/-- `fuzzy_partitioning(variable, class_variable, min_point)` of
`flore/fuzzy/_base.py`.  The candidate search is `best_split`; when no
candidate exists (`best_wef` stays `inf`) the Python comparison
`not (-inf < threshold)` is false, so the call returns
`[min_point, max_point]` directly.  The source raises on an empty
`variable` (`variable.max()`) and on a singleton (`log2(0)`); this total
model returns `[]` and `[min_point, max_point]` there instead, which no
claim depends on. -/
noncomputable def fuzzy_partitioning : List ℝ → List ℕ → ℝ → List ℝ
  | [], _, _ => []
  | v0 :: vs, class_var, min_point =>
    let max_point := max_of (v0 :: vs)
    match h : best_split (v0 :: vs) class_var min_point max_point with
    | none => [min_point, max_point]
    | some (best_point, best_wef, best_triangle) =>
      let global_fuzzy_triangles :=
        get_fuzzy_triangle (v0 :: vs) [("low", min_point), ("high", max_point)]
      let global_wef := weighted_fuzzy_entropy global_fuzzy_triangles class_var
      let f_gain := global_wef - best_wef
      let delta := get_delta_point global_fuzzy_triangles best_triangle class_var
      let threshold :=
        (Real.logb 2 (((v0 :: vs).length : ℝ) - 1) + delta) / (v0 :: vs).length
      if f_gain < threshold then [min_point, max_point]
      else
        let left := ((v0 :: vs).zip class_var).filter (fun pc => pc.1 ≤ best_point)
        let right := ((v0 :: vs).zip class_var).filter (fun pc => best_point < pc.1)
        let left_points :=
          if 1 < left.length then
            fuzzy_partitioning (left.map Prod.fst) (left.map Prod.snd) min_point
          else []
        let right_points :=
          if 1 < right.length then
            fuzzy_partitioning (right.map Prod.fst) (right.map Prod.snd) best_point
          else []
        np_unique (left_points ++ right_points)
  termination_by var _ _ => var.length
  decreasing_by
  · simpa using left_length_lt h rfl
  · simpa using right_length_lt h

theorem mem_np_unique {l : List ℝ} {x : ℝ} : x ∈ np_unique l ↔ x ∈ l := by
  simp [np_unique, Finset.mem_sort]

theorem np_unique_sorted_lt (l : List ℝ) : (np_unique l).Sorted (· < ·) :=
  Finset.sort_sorted_lt _

theorem one_lt_length_of_two_mem {β : Type} :
    ∀ {l : List β} {x y : β}, x ∈ l → y ∈ l → x ≠ y → 1 < l.length
  | [], x, _, hx, _, _ => absurd hx (List.not_mem_nil x)
  | [a], x, y, hx, hy, hxy => by
      rw [List.mem_singleton] at hx hy
      exact absurd (hx.trans hy.symm) hxy
  | _ :: _ :: _, _, _, _, _, _ => by simp [List.length_cons]

theorem mem_of_mem_zip_filter_fst {p : ℝ × ℕ → Bool} {var : List ℝ} {cv : List ℕ}
    {x : ℝ} (hx : x ∈ ((var.zip cv).filter p).map Prod.fst) : x ∈ var := by
  obtain ⟨pair, hpair, hfst⟩ := List.mem_map.mp hx
  exact hfst ▸ (List.of_mem_zip (List.mem_of_mem_filter hpair)).1

theorem pair_mem_left_filter {var : List ℝ} {cv : List ℕ} {x bp : ℝ}
    (hx : x ∈ var) (hlen : var.length ≤ cv.length) (hle : x ≤ bp) :
    x ∈ ((var.zip cv).filter (fun pc => pc.1 ≤ bp)).map Prod.fst := by
  obtain ⟨c, hc⟩ := exists_zip_pair var cv x hx hlen
  exact List.mem_map.mpr ⟨(x, c), List.mem_filter.mpr ⟨hc, by simpa using hle⟩, rfl⟩

/-- Invariant of every recursive call of `fuzzy_partitioning` whose
`min_point` is a lower bound of the sample (with at least one element
strictly above it): the returned breakpoints are strictly sorted and
bounded below by `min_point`. -/
theorem fp_sorted_lowerBound :
    ∀ (n : ℕ) (var : List ℝ) (class_var : List ℕ) (mp : ℝ),
      var.length ≤ n → class_var.length = var.length →
      (∀ x ∈ var, mp ≤ x) → (∃ x ∈ var, mp < x) →
      (fuzzy_partitioning var class_var mp).Sorted (· < ·) ∧
        ∀ y ∈ fuzzy_partitioning var class_var mp, mp ≤ y := by
  intro n
  induction n with
  | zero =>
    intro var class_var mp hn hcv hle hlt
    match var with
    | [] =>
      obtain ⟨x, hx, _⟩ := hlt
      exact absurd hx (List.not_mem_nil x)
  | succ n ih =>
    intro var class_var mp hn hcv hle hlt
    match var with
    | [] =>
      obtain ⟨x, hx, _⟩ := hlt
      exact absurd hx (List.not_mem_nil x)
    | v0 :: vs =>
      obtain ⟨z, hz, hzlt⟩ := hlt
      have hMp : mp < max_of (v0 :: vs) := lt_of_lt_of_le hzlt (le_max_of hz)
      have hreject :
          List.Sorted (· < ·) [mp, max_of (v0 :: vs)] ∧
            ∀ y ∈ [mp, max_of (v0 :: vs)], mp ≤ y := by
        constructor
        · simp [List.sorted_cons, hMp]
        · intro y hy
          rcases List.mem_cons.mp hy with h | h
          · exact le_of_eq h.symm
          · rw [List.mem_singleton] at h
            exact h ▸ le_of_lt hMp
      rw [fuzzy_partitioning]
      split
      · exact hreject
      · rename_i best_point best_wef best_triangle heq
        dsimp only
        split
        · exact hreject
        · have hbp := best_split_some heq
          have hmplt : mp < best_point := lt_of_le_of_ne (hle _ hbp.1) (Ne.symm hbp.2.1)
          have hvarcv : (v0 :: vs).length ≤ class_var.length := le_of_eq hcv.symm
          constructor
          · exact np_unique_sorted_lt _
          · intro y hy
            rw [mem_np_unique] at hy
            rcases List.mem_append.mp hy with hyl | hyr
            · by_cases hg :
                1 < (((v0 :: vs).zip class_var).filter (fun pc => pc.1 ≤ best_point)).length
              · rw [if_pos hg] at hyl
                refine (ih _ _ mp ?_ (by simp) ?_ ?_).2 y hyl
                · have := left_length_lt heq rfl
                  rw [List.length_map]
                  omega
                · intro x hx
                  exact hle x (mem_of_mem_zip_filter_fst hx)
                · exact ⟨best_point,
                    pair_mem_left_filter hbp.1 hvarcv (le_refl best_point), hmplt⟩
              · rw [if_neg hg] at hyl
                exact absurd hyl (List.not_mem_nil y)
            · by_cases hg :
                1 < (((v0 :: vs).zip class_var).filter (fun pc => best_point < pc.1)).length
              · rw [if_pos hg] at hyr
                have hright := ih
                  ((((v0 :: vs).zip class_var).filter
                    (fun pc => best_point < pc.1)).map Prod.fst)
                  ((((v0 :: vs).zip class_var).filter
                    (fun pc => best_point < pc.1)).map Prod.snd)
                  best_point
                  (by have := right_length_lt heq; rw [List.length_map]; omega)
                  (by simp)
                  (by
                    intro x hx
                    obtain ⟨pair, hpair, hfst⟩ := List.mem_map.mp hx
                    have := List.mem_filter.mp hpair
                    exact hfst ▸ le_of_lt (by simpa using this.2))
                  (by
                    have hne : (((v0 :: vs).zip class_var).filter
                        (fun pc => best_point < pc.1)) ≠ [] := by
                      intro hnil
                      rw [hnil] at hg
                      simp at hg
                    obtain ⟨pair, hpair⟩ := List.exists_mem_of_ne_nil _ hne
                    refine ⟨pair.1, List.mem_map.mpr ⟨pair, hpair, rfl⟩, ?_⟩
                    have := List.mem_filter.mp hpair
                    simpa using this.2)
                exact le_trans (le_of_lt hmplt) (hright.2 y hyr)
              · rw [if_neg hg] at hyr
                exact absurd hyr (List.not_mem_nil y)

/-- Invariant of every recursive call of `fuzzy_partitioning` whose
`min_point` is the attained minimum of the sample: `min_point` occurs in
the returned breakpoint list. -/
theorem fp_min_mem :
    ∀ (n : ℕ) (var : List ℝ) (class_var : List ℕ) (mp : ℝ),
      var.length ≤ n → class_var.length = var.length →
      mp ∈ var → (∀ x ∈ var, mp ≤ x) →
      mp ∈ fuzzy_partitioning var class_var mp := by
  intro n
  induction n with
  | zero =>
    intro var class_var mp hn hcv hmem hle
    match var with
    | [] => exact absurd hmem (List.not_mem_nil mp)
  | succ n ih =>
    intro var class_var mp hn hcv hmem hle
    match var with
    | [] => exact absurd hmem (List.not_mem_nil mp)
    | v0 :: vs =>
      rw [fuzzy_partitioning]
      split
      · exact List.mem_cons_self mp _
      · rename_i best_point best_wef best_triangle heq
        dsimp only
        split
        · exact List.mem_cons_self mp _
        · have hbp := best_split_some heq
          have hmplt : mp < best_point := lt_of_le_of_ne (hle _ hbp.1) (Ne.symm hbp.2.1)
          have hvarcv : (v0 :: vs).length ≤ class_var.length := le_of_eq hcv.symm
          have hmp_pair : mp ∈ (((v0 :: vs).zip class_var).filter
              (fun pc => pc.1 ≤ best_point)).map Prod.fst :=
            pair_mem_left_filter hmem hvarcv (le_of_lt hmplt)
          have hbp_pair : best_point ∈ (((v0 :: vs).zip class_var).filter
              (fun pc => pc.1 ≤ best_point)).map Prod.fst :=
            pair_mem_left_filter hbp.1 hvarcv (le_refl best_point)
          obtain ⟨pm, hpm, hpmf⟩ := List.mem_map.mp hmp_pair
          obtain ⟨pb, hpb, hpbf⟩ := List.mem_map.mp hbp_pair
          have hg : 1 < (((v0 :: vs).zip class_var).filter
              (fun pc => pc.1 ≤ best_point)).length := by
            refine one_lt_length_of_two_mem hpm hpb ?_
            intro hcontra
            rw [hcontra, hpbf] at hpmf
            exact absurd hpmf (ne_of_gt hmplt)
          rw [mem_np_unique]
          refine List.mem_append.mpr (Or.inl ?_)
          rw [if_pos hg]
          refine ih _ _ mp ?_ (by simp) hmp_pair ?_
          · have := left_length_lt heq rfl
            rw [List.length_map]
            omega
          · intro x hx
            exact hle x (mem_of_mem_zip_filter_fst hx)

open Classical in
/-- Number of distinct classes among the elements whose membership degree
in the set is strictly positive, written as the spec phrases it: the
subset of the distinct class labels for which some element of positive
membership carries that label. -/
noncomputable def distinctPositiveClasses (memb : List ℝ) (class_var : List ℕ) :
    Finset ℕ :=
  class_var.toFinset.filter (fun c => ∃ p ∈ memb.zip class_var, 0 < p.1 ∧ p.2 = c)

/-- `delta` of the stopping rule, written as the spec phrases it:
`log2(3^k - 2) - (old_entropy_term - new_entropy_term)` with `k` the
number of distinct classes, `old_entropy_term` summing
`k * fuzzy_entropy` over the sets of the global triangle and
`new_entropy_term` summing `k' * fuzzy_entropy` over the sets of the best
triangle, `k'` counting the distinct classes among elements of strictly
positive membership. -/
noncomputable def delta_spec (global_ft best_ft : List (String × List ℝ))
    (class_var : List ℕ) : ℝ :=
  let k := class_var.toFinset.card
  let old_entropy_term :=
    (global_ft.map (fun t => (k : ℝ) * fuzzy_entropy t.2 class_var)).sum
  let new_entropy_term :=
    (best_ft.map (fun t =>
      ((distinctPositiveClasses t.2 class_var).card : ℝ) *
        fuzzy_entropy t.2 class_var)).sum
  Real.logb 2 ((3 : ℝ) ^ k - 2) - (old_entropy_term - new_entropy_term)

/-- Stopping threshold of the spec: `(log2(n - 1) + delta) / n` with `n`
the number of elements of the sample. -/
noncomputable def threshold_spec (n : ℕ) (delta : ℝ) : ℝ :=
  (Real.logb 2 ((n : ℝ) - 1) + delta) / n

open Classical in
/-- Spec phrasing of `fuzzy_entropy`: sum over the distinct class values
of strictly positive class fuzzy cardinality of `-r * log2 r`. -/
noncomputable def fuzzy_entropy_spec (triangle : List ℝ) (class_var : List ℕ) : ℝ :=
  ∑ value ∈ class_var.toFinset.filter
      (fun c => 0 < classFuzzyCard triangle class_var c),
    -(classFuzzyCard triangle class_var value / triangle.sum) *
      Real.logb 2 (classFuzzyCard triangle class_var value / triangle.sum)

end Discretizer

section Rules

/-- `Rule` of `teacher/tree/rule.py`: an immutable
antecedent/consequent/weight triple; the antecedent is an ordered
sequence of `(feature, fuzzy set name)` pairs, weights are reals
(modelled in `ℚ`, the computable subfield the claims use). -/
structure Rule where
  antecedent : List (String × String)
  consequent : String
  weight : ℚ
deriving DecidableEq

/-- `instance_membership`: `{feature: {value: membership degree}}`,
modelled as an association list of association lists. -/
abbrev InstanceMembership := List (String × List (String × ℚ))

/-- `instance_membership[feature][value]`; `none` is a `KeyError`. -/
def lookupDegree (m : InstanceMembership) (feature value : String) : Option ℚ :=
  match m.lookup feature with
  | none => none
  | some vm => vm.lookup value

/-- The default t-norm `min` applied to the list of looked-up degrees;
`none` models the uncaught `ValueError` that Python `min([])` raises. -/
def minTnorm : List ℚ → Option ℚ
  | [] => none
  | d :: ds => some (ds.foldl min d)

/-- `Rule.matching(instance_membership, t_norm)`: look up every
antecedent pair and combine the degrees with `t_norm`; a `KeyError` from
any lookup is caught and yields degree `0`.  Errors raised by the t-norm
itself (`minTnorm []`) are not caught. -/
def Rule.matching (r : Rule) (m : InstanceMembership)
    (t_norm : List ℚ → Option ℚ) : Option ℚ :=
  match r.antecedent.mapM (fun fv => lookupDegree m fv.1 fv.2) with
  | none => some 0
  | some degrees => t_norm degrees

/-- `conse_dict[key] += v` on a `defaultdict(lambda: 0)`: association
list accumulation, appending unseen keys at the end (Python dicts
iterate in key-insertion order). -/
def accumulate : List (String × ℚ) → String → ℚ → List (String × ℚ)
  | [], c, v => [(c, v)]
  | (c0, v0) :: rest, c, v =>
      if c0 = c then (c0, v0 + v) :: rest else (c0, v0) :: accumulate rest c v

/-- One step of Python `max(iterable, key=...)`: the running best is
replaced only when the key of the new element is strictly greater, so
the first maximizer is kept. -/
def pymaxStep {β : Type} (key : β → ℚ) (best x : β) : β :=
  if key x > key best then x else best

/-- Python `max(dict, key=lambda k: dict[k])`: first key attaining the
maximal value; `none` is the `ValueError` on an empty dict. -/
def argmaxFirst : List (String × ℚ) → Option String
  | [] => none
  | (c, v) :: rest => some ((rest.foldl (pymaxStep Prod.snd) (c, v)).1)

/-- `Rule.weighted_vote(rule_list, instance_membership)`: accumulate
`AD = matching * weight` per consequent and return the consequent of
maximal accumulated sum.  `none` propagates a `ValueError` raised by a
rule with an empty antecedent or by `max` on an empty rule list. -/
def Rule.weighted_vote (rule_list : List Rule) (m : InstanceMembership) :
    Option String :=
  match rule_list.mapM (fun r =>
      (r.matching m minTnorm).map (fun d => (r.consequent, d * r.weight))) with
  | none => none
  | some activations =>
      argmaxFirst (activations.foldl (fun acc cv => accumulate acc cv.1 cv.2) [])

/-- `_aggregated_vote(all_classes)` of `teacher/tree/_voting.py`: each
leaf is `(class weight mapping, leaf activation weight)`; per class key,
sum `leaf[0][key] * leaf[1]` into a `defaultdict(lambda: 0)`. -/
def aggregated_vote (all_classes : List (List (String × ℚ) × ℚ)) :
    List (String × ℚ) :=
  all_classes.foldl
    (fun agg_vote leaf =>
      leaf.1.foldl (fun acc kv => accumulate acc kv.1 (kv.2 * leaf.2)) agg_vote)
    []

/-- `max_match[key] = np.maximum(max_match[key], v)` on a
`defaultdict(lambda: 0)`: reading a missing key inserts `0`, then the
assignment stores the maximum. -/
def upsertMax : List (String × ℚ) → String → ℚ → List (String × ℚ)
  | [], k, v => [(k, max 0 v)]
  | (k0, v0) :: rest, k, v =>
      if k0 = k then (k0, max v0 v) :: rest else (k0, v0) :: upsertMax rest k v

/-- `_maximum_matching(all_classes)` of `teacher/tree/_voting.py`: per
class key, the maximum of `leaf[0][key] * leaf[1]` across leaves, with
the `defaultdict` zero as floor. -/
def maximum_matching (all_classes : List (List (String × ℚ) × ℚ)) :
    List (String × ℚ) :=
  all_classes.foldl
    (fun max_match leaf =>
      leaf.1.foldl (fun acc kv => upsertMax acc kv.1 (kv.2 * leaf.2)) max_match)
    []

/-- Named fuzzy set of a fuzzy variable.  The `FuzzySet` class is not
part of the analysed sources; per the spec it is a named set over a
shared universe, carried here as a name plus an opaque payload so that
distinct sets with equal names stay distinguishable. -/
structure FuzzySet where
  name : String
  memb : List ℚ
deriving DecidableEq

/-- `FuzzyVariable`: a feature name plus its ordered fuzzy sets. -/
structure FuzzyVariable where
  name : String
  fuzzy_sets : List FuzzySet
deriving DecidableEq

/-- The uncaught exceptions `Rule.map_rule_variables` can raise. -/
inductive MapRuleError where
  | universeMismatch
  | keyError
  | emptyMax
deriving DecidableEq

/-- `d[k] = v` on a Python dict modelled as an association list in
key-insertion order: replace in place, or append a new key. -/
def insertOrReplace {β : Type} : List (String × β) → String → β → List (String × β)
  | [], k, v => [(k, v)]
  | (k0, v0) :: rest, k, v =>
      if k0 = k then (k0, v) :: rest else (k0, v0) :: insertOrReplace rest k v

/-- A Python dict comprehension over a list of entries (later duplicate
keys win, first-insertion order is kept). -/
def pyDict {β : Type} (entries : List (String × β)) : List (String × β) :=
  entries.foldl (fun d kv => insertOrReplace d kv.1 kv.2) []

/-- Python `max(sets, key=...)` over fuzzy sets: first maximizer; `none`
is the `ValueError` raised by `max([])`. -/
def maxBySet (key : FuzzySet → ℚ) : List FuzzySet → Option FuzzySet
  | [] => none
  | f :: fs => some (fs.foldl (pymaxStep key) f)

/-- Body of the antecedent-rewriting loop of `Rule.map_rule_variables`:
`origin_feat = origin_dict[feat]`, `dest_feat = dest_dict[feat]`,
`origin_fs = {fs.name: fs for fs in origin_feat}[value]`,
`dest_fs = max(dest_feat, key=lambda fs: fs.intersection(origin_fs))`;
each failed lookup is a `KeyError`, `max` of an empty list a
`ValueError`. -/
def map_antecedent_entry (inter : FuzzySet → FuzzySet → ℚ)
    (origin_dict dest_dict : List (String × List FuzzySet))
    (fv : String × String) : Except MapRuleError (String × String) :=
  match origin_dict.lookup fv.1 with
  | none => Except.error MapRuleError.keyError
  | some origin_feat =>
    match dest_dict.lookup fv.1 with
    | none => Except.error MapRuleError.keyError
    | some dest_feat =>
      match (pyDict (origin_feat.map (fun fs => (fs.name, fs)))).lookup fv.2 with
      | none => Except.error MapRuleError.keyError
      | some origin_fs =>
        match maxBySet (fun fs => inter fs origin_fs) dest_feat with
        | none => Except.error MapRuleError.emptyMax
        | some dest_fs => Except.ok (fv.1, dest_fs.name)

/-- `Rule.map_rule_variables(rule, origin_fuzzy_variables,
dest_fuzzy_variables)` of `teacher/tree/rule.py`.  Modelled from the
spec: the `FuzzySet.intersection` method is not part of the analysed
sources, so the pairwise fuzzy-set overlap measure is the abstract
parameter `inter`, with `fs.intersection(origin_fs)` read as
`inter fs origin_fs`. -/
def map_rule_variables (inter : FuzzySet → FuzzySet → ℚ) (rule : Rule)
    (origin_fuzzy_variables dest_fuzzy_variables : List FuzzyVariable) :
    Except MapRuleError Rule :=
  let origin_dict :=
    pyDict (origin_fuzzy_variables.map (fun fv => (fv.name, fv.fuzzy_sets)))
  let dest_dict :=
    pyDict (dest_fuzzy_variables.map (fun fv => (fv.name, fv.fuzzy_sets)))
  if (origin_dict.map Prod.fst).toFinset ≠ (dest_dict.map Prod.fst).toFinset then
    Except.error MapRuleError.universeMismatch
  else
    match rule.antecedent.mapM (map_antecedent_entry inter origin_dict dest_dict) with
    | Except.error e => Except.error e
    | Except.ok new_antecedent =>
        Except.ok ⟨new_antecedent, rule.consequent, rule.weight⟩

end Rules

section SupportLemmas

variable {α : Type} [LinearOrderedField α]

theorem mapM_option_congr {β γ : Type} (f : β → Option γ) (g : β → γ) :
    ∀ l : List β, (∀ x ∈ l, f x = some (g x)) → l.mapM f = some (l.map g)
  | [], _ => rfl
  | x :: xs, h => by
      rw [List.mapM_cons, h x (List.mem_cons_self x xs),
        mapM_option_congr f g xs (fun y hy => h y (List.mem_cons_of_mem x hy))]
      rfl

theorem mapM_option_eq_none {β γ : Type} (f : β → Option γ) :
    ∀ l : List β, (∃ x ∈ l, f x = none) → l.mapM f = none
  | [], h => by simp at h
  | x :: xs, h => by
      rw [List.mapM_cons]
      obtain ⟨y, hy, hfy⟩ := h
      rcases List.mem_cons.mp hy with rfl | hy2
      · rw [hfy]
        rfl
      · cases hfx : f x with
        | none => rfl
        | some d => rw [mapM_option_eq_none f xs ⟨y, hy2, hfy⟩]; rfl

theorem getLast?_cons_of_ne_nil {β : Type} {l : List β} (a : β) (h : l ≠ []) :
    (a :: l).getLast? = l.getLast? := by
  cases l with
  | nil => exact absurd rfl h
  | cons b t => exact List.getLast?_cons_cons

theorem restSets_cons_ne_nil (var : List α) (prev : α) (lh : String) (ph : α)
    (tail : List (String × α)) : restSets var prev ((lh, ph) :: tail) ≠ [] := by
  cases tail with
  | nil => simp [restSets]
  | cons b t =>
    rcases b with ⟨lj, pj⟩
    simp [restSets]

theorem restSets_getLast? :
    ∀ (tail : List (String × α)) (lh : String) (ph prev : α) (var : List α)
      (lK : String) (pK pJ : α),
      ((lh, ph) :: tail).getLast? = some (lK, pK) →
      (prev :: ph :: tail.map Prod.snd).dropLast.getLast? = some pJ →
      (restSets var prev ((lh, ph) :: tail)).getLast? =
        some (lK, var.map (trimf pJ pK pK))
  | [], lh, ph, prev, var, lK, pK, pJ, hK, hJ => by
      simp only [List.getLast?_singleton, Option.some_inj] at hK
      simp only [List.map_nil, List.dropLast, List.getLast?_singleton,
        Option.some_inj] at hJ
      cases hK
      cases hJ
      rfl
  | (lj, pj) :: rest2, lh, ph, prev, var, lK, pK, pJ, hK, hJ => by
      have hK2 : ((lj, pj) :: rest2).getLast? = some (lK, pK) := by
        rw [← hK, List.getLast?_cons_cons]
      have hJ2 : (ph :: pj :: rest2.map Prod.snd).dropLast.getLast? = some pJ := by
        rw [← hJ]
        simp only [List.map_cons, List.dropLast_cons₂]
        exact (getLast?_cons_of_ne_nil prev (by simp)).symm
      rw [restSets, getLast?_cons_of_ne_nil _ (restSets_cons_ne_nil var ph lj pj rest2)]
      exact restSets_getLast? rest2 lj pj ph var lK pK pJ hK2 hJ2

end SupportLemmas

section ClaimTheorems

/-- C3: for a triangle specification with strictly increasing peaks
`p0 < p1 < ... < pK` (at least two divisions), every membership degree
produced by `get_fuzzy_triangle` lies in `[0, 1]`, and for every value
`v` with `p0 ≤ v ≤ pK` the degrees of `v` across all the labels of the
specification sum to exactly `1`. -/
theorem c3_triangle_partition_of_unity {α : Type} [LinearOrderedField α]
    (var : List α) (l0 l1 : String) (p0 p1 pK : α) (rest : List (String × α))
    (hch : List.Chain (· < ·) p0 (p1 :: rest.map Prod.snd))
    (hlast : (p1 :: rest.map Prod.snd).getLast? = some pK) :
    (∀ pair ∈ get_fuzzy_triangle var ((l0, p0) :: (l1, p1) :: rest),
        ∀ d ∈ pair.2, 0 ≤ d ∧ d ≤ 1) ∧
      ∀ v, p0 ≤ v → v ≤ pK →
        degreeSumAt (get_fuzzy_triangle [v] ((l0, p0) :: (l1, p1) :: rest)) = 1 := by
  refine ⟨get_fuzzy_triangle_bounds var _, ?_⟩
  intro v hv0 hvK
  exact get_fuzzy_triangle_sum_one l0 l1 p0 p1 pK v rest hch hlast hv0 hvK

/-- Witness for C3 at the specification
`[("low", 0), ("mid", 1), ("high", 2)]` over `ℚ` and the value `1/2`. -/
theorem c3_triangle_partition_of_unity_witness :
    ((∀ pair ∈ get_fuzzy_triangle [(1 : ℚ)/2] [("low", 0), ("mid", 1), ("high", 2)],
        ∀ d ∈ pair.2, 0 ≤ d ∧ d ≤ 1) ∧
      ∀ v, (0 : ℚ) ≤ v → v ≤ 2 →
        degreeSumAt (get_fuzzy_triangle [v] [("low", 0), ("mid", 1), ("high", 2)]) = 1) ∧
    degreeSumAt (get_fuzzy_triangle [(1 : ℚ)/2] [("low", 0), ("mid", 1), ("high", 2)]) = 1 := by
  have h := c3_triangle_partition_of_unity [(1 : ℚ)/2] "low" "mid" 0 1 2
    [("high", 2)] (by norm_num [List.chain_cons]) (by decide)
  exact ⟨h, h.2 ((1 : ℚ)/2) (by norm_num) (by norm_num)⟩

/-- C8 counterexample: at the divisions `[("low", 0), ("high", 1)]` the
first set assigns degree `0`, not `1`, to the input value `-1 ≤ p0`. -/
theorem c8_counterexample :
    ((-1 : ℚ) ≤ 0) ∧
    (get_fuzzy_triangle [(-1 : ℚ)] [("low", 0), ("high", 1)]).head? =
      some ("low", [0]) ∧ (0 : ℚ) ≠ 1 := by decide

/-- C8 amended: with strictly increasing peaks, the first array of
`get_fuzzy_triangle` carries degree `1` exactly at `p0`, degree `0`
strictly below `p0`, the falling edge `(p1 - v) / (p1 - p0)` on
`(p0, p1)` and `0` from `p1` on; the last array carries degree `1`
exactly at `pK`, degree `0` strictly above `pK`, the rising edge
`(v - pJ) / (pK - pJ)` on `(pJ, pK)` (with `pJ` the next-to-last peak)
and `0` below `pJ`. -/
theorem c8_half_triangles {α : Type} [LinearOrderedField α]
    (var : List α) (l0 l1 lK : String) (p0 p1 pK pJ : α) (rest : List (String × α))
    (hch : List.Chain (· < ·) p0 (p1 :: rest.map Prod.snd))
    (hK : ((l1, p1) :: rest).getLast? = some (lK, pK))
    (hJ : (p0 :: p1 :: rest.map Prod.snd).dropLast.getLast? = some pJ)
    (hJK : pJ < pK) :
    (get_fuzzy_triangle var ((l0, p0) :: (l1, p1) :: rest)).head? =
        some (l0, var.map (trimf p0 p0 p1)) ∧
    (get_fuzzy_triangle var ((l0, p0) :: (l1, p1) :: rest)).getLast? =
        some (lK, var.map (trimf pJ pK pK)) ∧
    (∀ v, (v = p0 → trimf p0 p0 p1 v = 1) ∧ (v < p0 → trimf p0 p0 p1 v = 0) ∧
      (p0 < v → v < p1 → trimf p0 p0 p1 v = (p1 - v) / (p1 - p0)) ∧
      (p1 ≤ v → trimf p0 p0 p1 v = 0)) ∧
    (∀ v, (v = pK → trimf pJ pK pK v = 1) ∧ (pK < v → trimf pJ pK pK v = 0) ∧
      (pJ < v → v < pK → trimf pJ pK pK v = (v - pJ) / (pK - pJ)) ∧
      (v ≤ pJ → trimf pJ pK pK v = 0)) := by
  simp only [List.chain_cons] at hch
  have h01 : p0 < p1 := hch.1
  refine ⟨rfl, ?_, ?_, ?_⟩
  · show ((l0, var.map (trimf p0 p0 p1)) ::
        restSets var p0 ((l1, p1) :: rest)).getLast? = _
    rw [getLast?_cons_of_ne_nil _ (restSets_cons_ne_nil var p0 l1 p1 rest)]
    exact restSets_getLast? rest l1 p1 p0 var lK pK pJ hK hJ
  · intro v
    refine ⟨?_, ?_, ?_, ?_⟩
    · intro hv
      subst hv
      unfold trimf
      rw [if_pos rfl]
    · intro hv
      exact trimf_of_le_left hv (le_of_lt hv)
    · intro hv0 hv1
      unfold trimf
      rw [if_neg (ne_of_gt hv0), if_neg (by rintro ⟨h1, h2⟩; linarith),
          if_pos ⟨hv0, hv1⟩]
    · intro hv
      unfold trimf
      rw [if_neg (by intro hc; rw [hc] at hv; exact absurd h01 (not_lt_of_le hv)),
          if_neg (by rintro ⟨h1, h2⟩; linarith),
          if_neg (by rintro ⟨_, h2⟩; linarith)]
  · intro v
    refine ⟨?_, ?_, ?_, ?_⟩
    · intro hv
      subst hv
      unfold trimf
      rw [if_pos rfl]
    · intro hv
      exact trimf_of_ge_right hv (le_of_lt hv)
    · intro hv0 hv1
      unfold trimf
      rw [if_neg (ne_of_lt hv1), if_pos ⟨hv0, hv1⟩]
    · intro hv
      exact trimf_of_le_left (lt_of_le_of_lt hv hJK) hv

/-- Witness for C8 amended at the divisions
`[("low", 0), ("mid", 1), ("high", 2)]` over `ℚ`. -/
theorem c8_half_triangles_witness :
    (get_fuzzy_triangle [(3 : ℚ)] [("low", 0), ("mid", 1), ("high", 2)]).getLast? =
        some ("high", [(3 : ℚ)].map (trimf 1 2 2)) ∧
    trimf (1 : ℚ) 2 2 3 = 0 ∧ trimf (0 : ℚ) 0 1 (-1) = 0 := by
  have h := c8_half_triangles [(3 : ℚ)] "low" "mid" "high" 0 1 2 1 [("high", 2)]
    (by norm_num [List.chain_cons]) (by decide) (by decide) (by norm_num)
  exact ⟨h.2.1, (h.2.2.2 3).2.1 (by norm_num), ((h.2.2.1 (-1)).2.1 (by norm_num))⟩

/-- C10: a rule whose antecedent is empty makes `Rule.matching` with the
default t-norm raise (`min([])` is a `ValueError` that the `KeyError`
handler does not catch), modelled by the `none` result: matching returns
a degree only for non-empty antecedents. -/
theorem c10_matching_empty_antecedent (r : Rule) (m : InstanceMembership)
    (h : r.antecedent = []) : r.matching m minTnorm = none := by
  unfold Rule.matching
  rw [h]
  rfl

/-- Witness for C10 on a concrete empty-antecedent rule. -/
theorem c10_matching_empty_antecedent_witness :
    Rule.matching ⟨[], "A", 1⟩ [] minTnorm = none :=
  c10_matching_empty_antecedent ⟨[], "A", 1⟩ [] rfl

/-- C4: if every antecedent pair of a (non-empty) rule is present in the
instance membership, `Rule.matching` returns the t-norm of the looked-up
degrees (and with the default minimum t-norm this is a degree, not an
error); if any feature or value is absent, it returns exactly `0`
without raising. -/
theorem c4_matching_cases (r : Rule) (m : InstanceMembership)
    (t_norm : List ℚ → Option ℚ) (hne : r.antecedent ≠ []) :
    ((∀ fv ∈ r.antecedent, (lookupDegree m fv.1 fv.2).isSome) →
      r.matching m t_norm =
        t_norm (r.antecedent.map (fun fv => (lookupDegree m fv.1 fv.2).getD 0)) ∧
      (r.matching m minTnorm).isSome) ∧
    ((∃ fv ∈ r.antecedent, lookupDegree m fv.1 fv.2 = none) →
      r.matching m t_norm = some 0) := by
  constructor
  · intro hall
    have hmap := mapM_option_congr (fun fv => lookupDegree m fv.1 fv.2)
      (fun fv => (lookupDegree m fv.1 fv.2).getD 0) r.antecedent
      (fun fv hfv => by
        show lookupDegree m fv.1 fv.2 = some ((lookupDegree m fv.1 fv.2).getD 0)
        cases hl : lookupDegree m fv.1 fv.2 with
        | none => exact absurd (hl ▸ hall fv hfv) (by simp)
        | some d => rfl)
    constructor
    · unfold Rule.matching
      rw [hmap]
    · unfold Rule.matching
      rw [hmap]
      match hante : r.antecedent with
      | [] => exact absurd hante hne
      | fv :: rest => simp [minTnorm]
  · intro hmiss
    unfold Rule.matching
    rw [mapM_option_eq_none _ _ hmiss]

/-- Witness for C4: a present antecedent gives the minimum of the
looked-up degrees, an absent value gives exactly `0`. -/
theorem c4_matching_cases_witness :
    (Rule.matching ⟨[("age", "young")], "A", 1⟩
        [("age", [("young", 3/10), ("old", 7/10)])] minTnorm =
      minTnorm [(3 : ℚ)/10]) ∧
    (Rule.matching ⟨[("age", "unknown")], "A", 1⟩
        [("age", [("young", 3/10), ("old", 7/10)])] minTnorm = some 0) := by
  constructor
  · exact ((c4_matching_cases ⟨[("age", "young")], "A", 1⟩
      [("age", [("young", 3/10), ("old", 7/10)])] minTnorm (by decide)).1
      (by decide)).1
  · exact (c4_matching_cases ⟨[("age", "unknown")], "A", 1⟩
      [("age", [("young", 3/10), ("old", 7/10)])] minTnorm (by decide)).2
      ⟨("age", "unknown"), by decide, by decide⟩

/-- C2 counterexample: on the constant two-element sample `[5, 5]` with
labels `[0, 1]` and `min_point = 5` (its attained minimum), the
discretizer finds no admissible candidate, rejects, and returns
`[min_point, max_point] = [5, 5]`, which contains a duplicate value. -/
theorem c2_counterexample :
    fuzzy_partitioning [5, 5] [0, 1] 5 = [5, 5] ∧
    ¬ ([(5 : ℝ), 5].Nodup) ∧
    (5 : ℝ) ∈ [(5 : ℝ), 5] ∧ (∀ x ∈ [(5 : ℝ), 5], (5 : ℝ) ≤ x) ∧
    ([(5 : ℝ), 5].length = [0, 1].length) := by
  refine ⟨?_, by simp, by simp, by simp, by simp⟩
  rw [fuzzy_partitioning]
  have hmax : max_of [(5 : ℝ), 5] = 5 := by simp [max_of]
  rw [hmax]
  have hbs : best_split [(5 : ℝ), 5] [0, 1] 5 5 = none := by simp [best_split]
  split
  · rfl
  · rename_i heq
    rw [hbs] at heq
    cases heq

/-- C2 amended: for every sample containing at least two distinct values,
with parallel class labels and `min_point` its attained minimum, the
breakpoint list returned by `fuzzy_partitioning` is sorted ascending,
contains no duplicates, and starts with the domain minimum. -/
theorem c2_breakpoints_sorted (var : List ℝ) (class_var : List ℕ) (mp : ℝ)
    (hcv : class_var.length = var.length) (hmem : mp ∈ var)
    (hmin : ∀ x ∈ var, mp ≤ x)
    (hdist : ∃ a ∈ var, ∃ b ∈ var, a ≠ b) :
    (fuzzy_partitioning var class_var mp).Sorted (· ≤ ·) ∧
    (fuzzy_partitioning var class_var mp).Nodup ∧
    (fuzzy_partitioning var class_var mp).head? = some mp := by
  have hlt : ∃ x ∈ var, mp < x := by
    obtain ⟨a, ha, b, hb, hab⟩ := hdist
    rcases eq_or_lt_of_le (hmin a ha) with h | h
    · exact ⟨b, hb, lt_of_le_of_ne (hmin b hb) (fun hc => hab (h ▸ hc.symm ▸ rfl))⟩
    · exact ⟨a, ha, h⟩
  have hG := fp_sorted_lowerBound var.length var class_var mp (le_refl _)
    hcv hmin hlt
  have hH := fp_min_mem var.length var class_var mp (le_refl _) hcv hmem hmin
  refine ⟨hG.1.le_of_lt, hG.1.nodup, ?_⟩
  match hres : fuzzy_partitioning var class_var mp with
  | [] => rw [hres] at hH; exact absurd hH (List.not_mem_nil mp)
  | r0 :: rs =>
    rw [hres] at hH hG
    rcases List.mem_cons.mp hH with h | h
    · rw [List.head?_cons, h]
    · have h1 : r0 < mp := List.rel_of_sorted_cons hG.1 mp h
      have h2 : mp ≤ r0 := hG.2 r0 (List.mem_cons_self r0 rs)
      exact absurd h1 (not_lt_of_le h2)

/-- Witness for C2 amended on the sample `[0, 10]` with labels `[0, 1]`
and `min_point = 0`. -/
theorem c2_breakpoints_sorted_witness :
    (fuzzy_partitioning [0, 10] [0, 1] 0).Sorted (· ≤ ·) ∧
    (fuzzy_partitioning [0, 10] [0, 1] 0).Nodup ∧
    (fuzzy_partitioning [0, 10] [0, 1] 0).head? = some 0 :=
  c2_breakpoints_sorted [0, 10] [0, 1] 0 (by simp) (by norm_num)
    (by intro x hx; rcases List.mem_cons.mp hx with h | h
        · norm_num [h]
        · simp only [List.mem_singleton] at h; norm_num [h])
    ⟨0, by norm_num, 10, by norm_num, by norm_num⟩

theorem classFuzzyCard_of_all_label {t : List ℝ} {cv : List ℕ} {c0 : ℕ}
    (hlen : t.length ≤ cv.length) (hl : ∀ c ∈ cv, c = c0) :
    classFuzzyCard t cv c0 = t.sum := by
  unfold classFuzzyCard
  rw [List.filter_eq_self.mpr, List.map_fst_zip t cv hlen]
  intro p hp
  simp only [decide_eq_true_eq]
  exact hl p.2 (List.of_mem_zip hp).2

theorem mem_of_classFuzzyCard_pos {t : List ℝ} {cv : List ℕ} {c : ℕ}
    (h : 0 < classFuzzyCard t cv c) : c ∈ cv := by
  by_contra hc
  have hnil : (t.zip cv).filter (fun p => p.2 = c) = [] := by
    rw [List.filter_eq_nil_iff]
    intro p hp
    simp only [decide_eq_true_eq]
    intro hpc
    exact hc (hpc ▸ (List.of_mem_zip hp).2)
  unfold classFuzzyCard at h
  rw [hnil] at h
  simp at h

theorem sum_filter_two_labels {c0 c1 : ℕ} (hne : c0 ≠ c1) :
    ∀ l : List (ℝ × ℕ), (∀ p ∈ l, p.2 = c0 ∨ p.2 = c1) →
      ((l.filter (fun p => p.2 = c0)).map Prod.fst).sum +
        ((l.filter (fun p => p.2 = c1)).map Prod.fst).sum =
        (l.map Prod.fst).sum
  | [], _ => by simp
  | p :: rest, h => by
      have htail := sum_filter_two_labels hne rest
        (fun q hq => h q (List.mem_cons_of_mem p hq))
      rcases h p (List.mem_cons_self p rest) with hp | hp
      · rw [List.filter_cons, List.filter_cons, if_pos (by simp [hp]),
            if_neg (by simp [hp, hne])]
        simp only [List.map_cons, List.sum_cons]
        rw [add_assoc, htail]
      · rw [List.filter_cons, List.filter_cons,
            if_neg (by
              simp only [decide_eq_true_eq]
              intro hc
              rw [hp] at hc
              exact hne hc.symm),
            if_pos (by simp [hp])]
        simp only [List.map_cons, List.sum_cons]
        rw [← htail]
        ring

/-- C7: `fuzzy_entropy` equals the sum, over the distinct class values of
strictly positive class fuzzy cardinality, of `-r * log2 r` with
`r = class cardinality / total cardinality`; it is `0` when no class has
positive fuzzy cardinality, `0` on a crisp single-class set, and `1` on
a two-class set of equal positive fuzzy cardinalities. -/
theorem c7_fuzzy_entropy_properties :
    (∀ (t : List ℝ) (cv : List ℕ), fuzzy_entropy t cv = fuzzy_entropy_spec t cv) ∧
    (∀ (t : List ℝ) (cv : List ℕ),
      (∀ c ∈ cv.toFinset, ¬ 0 < classFuzzyCard t cv c) → fuzzy_entropy t cv = 0) ∧
    (∀ (t : List ℝ) (cv : List ℕ) (c0 : ℕ), t.length = cv.length →
      (∀ d ∈ t, d = 0 ∨ d = 1) → (∀ c ∈ cv, c = c0) → fuzzy_entropy t cv = 0) ∧
    (∀ (t : List ℝ) (cv : List ℕ) (c0 c1 : ℕ), t.length = cv.length → c0 ≠ c1 →
      (∀ c ∈ cv, c = c0 ∨ c = c1) →
      classFuzzyCard t cv c0 = classFuzzyCard t cv c1 →
      0 < classFuzzyCard t cv c0 → fuzzy_entropy t cv = 1) := by
  refine ⟨?_, ?_, ?_, ?_⟩
  · intro t cv
    unfold fuzzy_entropy fuzzy_entropy_spec
    rw [Finset.sum_filter]
  · intro t cv h
    unfold fuzzy_entropy
    exact Finset.sum_eq_zero (fun c hc => if_neg (h c hc))
  · intro t cv c0 hlen _ hl
    unfold fuzzy_entropy
    apply Finset.sum_eq_zero
    intro c hc
    have hc0 : c = c0 := hl c (List.mem_toFinset.mp hc)
    subst hc0
    have hcard : classFuzzyCard t cv c = t.sum :=
      classFuzzyCard_of_all_label (le_of_eq hlen) hl
    by_cases h : 0 < classFuzzyCard t cv c
    · rw [if_pos h, hcard]
      have hsum : t.sum ≠ 0 := by
        rw [hcard] at h
        exact ne_of_gt h
      rw [div_self hsum, Real.logb_one]
      ring
    · exact if_neg h
  · intro t cv c0 c1 hlen hne hl hcardeq hpos
    have htot : t.sum = classFuzzyCard t cv c0 + classFuzzyCard t cv c1 := by
      unfold classFuzzyCard
      rw [sum_filter_two_labels hne (t.zip cv)
        (fun p hp => hl p.2 (List.of_mem_zip hp).2), List.map_fst_zip t cv (le_of_eq hlen)]
    have hmem0 : c0 ∈ cv := mem_of_classFuzzyCard_pos hpos
    have hmem1 : c1 ∈ cv := mem_of_classFuzzyCard_pos (hcardeq ▸ hpos)
    have hfin : cv.toFinset = {c0, c1} := by
      apply Finset.Subset.antisymm
      · intro c hc
        rcases hl c (List.mem_toFinset.mp hc) with h | h
        · simp [h]
        · simp [h]
      · intro c hc
        rcases Finset.mem_insert.mp hc with h | h
        · exact h ▸ List.mem_toFinset.mpr hmem0
        · rw [Finset.mem_singleton] at h
          exact h ▸ List.mem_toFinset.mpr hmem1
    unfold fuzzy_entropy
    rw [hfin, Finset.sum_pair hne]
    have hval : ∀ c2 : ℕ, classFuzzyCard t cv c2 = classFuzzyCard t cv c0 →
        (if 0 < classFuzzyCard t cv c2 then
          -(classFuzzyCard t cv c2 / t.sum) *
            Real.logb 2 (classFuzzyCard t cv c2 / t.sum)
         else 0) = 1 / 2 := by
      intro c2 hc2
      rw [if_pos (hc2 ▸ hpos), hc2]
      have hratio : classFuzzyCard t cv c0 / t.sum = 1 / 2 := by
        rw [htot, ← hcardeq]
        rw [div_eq_iff (by linarith)]
        ring
      rw [hratio]
      have hlogb : Real.logb 2 ((1 : ℝ) / 2) = -1 := by
        rw [one_div, Real.logb_inv, Real.logb_self_eq_one (by norm_num)]
      rw [hlogb]
      ring
    rw [hval c0 rfl, hval c1 hcardeq.symm]
    norm_num

/-- Witness for C7: concrete instances of all four properties. -/
theorem c7_fuzzy_entropy_properties_witness :
    fuzzy_entropy [1] [0] = fuzzy_entropy_spec [1] [0] ∧
    fuzzy_entropy [0] [3] = 0 ∧
    fuzzy_entropy [1, 1] [2, 2] = 0 ∧
    fuzzy_entropy [1, 1] [0, 1] = 1 := by
  obtain ⟨h1, h2, h3, h4⟩ := c7_fuzzy_entropy_properties
  refine ⟨h1 [1] [0], h2 [0] [3] ?_, h3 [1, 1] [2, 2] 2 rfl (by norm_num)
    (by intro c hc; simpa using hc), h4 [1, 1] [0, 1] 0 1 rfl (by norm_num) ?_ ?_ ?_⟩
  · intro c hc
    have : c = 3 := by simpa using hc
    subst this
    simp [classFuzzyCard]
  · intro c hc
    rcases List.mem_cons.mp hc with h | h
    · exact Or.inl h
    · exact Or.inr (by simpa using h)
  · simp [classFuzzyCard, List.zip]
  · simp [classFuzzyCard, List.zip]

theorem distinctPositiveClasses_card_eq (memb : List ℝ) (class_var : List ℕ) :
    (distinctPositiveClasses memb class_var).card = newClassesCard memb class_var := by
  unfold distinctPositiveClasses newClassesCard
  congr 1
  ext c
  simp only [Finset.mem_filter, List.mem_toFinset, List.mem_map, List.mem_filter,
    decide_eq_true_eq]
  constructor
  · rintro ⟨_, p, hp, hpos, hpc⟩
    exact ⟨p, ⟨hp, hpos⟩, hpc⟩
  · rintro ⟨p, ⟨hp, hpos⟩, hpc⟩
    exact ⟨hpc ▸ (List.of_mem_zip hp).2, p, hp, hpos, hpc⟩

theorem get_delta_point_eq_delta_spec (global_ft best_ft : List (String × List ℝ))
    (class_var : List ℕ) :
    get_delta_point global_ft best_ft class_var =
      delta_spec global_ft best_ft class_var := by
  unfold get_delta_point delta_spec
  simp only [distinctPositiveClasses_card_eq]

/-- C1: with a chosen best split, the discretizer's stopping rule is
exactly the spec's: `delta = log2(3^k - 2) - (old_entropy_term -
new_entropy_term)` (the code's `get_delta_point` equals the spec
formula), `threshold = (log2(n - 1) + delta) / n`, and
`fuzzy_partitioning` recurses if and only if
`f_gain = global_wef - best_wef ≥ threshold` (the code tests
`not (f_gain < threshold)`), returning `[min_point, max_point]`
otherwise. -/
theorem c1_stopping_rule (v0 : ℝ) (vs : List ℝ) (class_var : List ℕ)
    (mp bp bwef : ℝ) (btri : List (String × List ℝ))
    (h : best_split (v0 :: vs) class_var mp (max_of (v0 :: vs)) =
      some (bp, bwef, btri)) :
    get_delta_point
        (get_fuzzy_triangle (v0 :: vs) [("low", mp), ("high", max_of (v0 :: vs))])
        btri class_var =
      delta_spec
        (get_fuzzy_triangle (v0 :: vs) [("low", mp), ("high", max_of (v0 :: vs))])
        btri class_var ∧
    fuzzy_partitioning (v0 :: vs) class_var mp =
      (if weighted_fuzzy_entropy
            (get_fuzzy_triangle (v0 :: vs) [("low", mp), ("high", max_of (v0 :: vs))])
            class_var - bwef ≥
          threshold_spec (v0 :: vs).length
            (delta_spec
              (get_fuzzy_triangle (v0 :: vs)
                [("low", mp), ("high", max_of (v0 :: vs))]) btri class_var) then
        np_unique
          ((if 1 < (((v0 :: vs).zip class_var).filter
                (fun pc => pc.1 ≤ bp)).length then
              fuzzy_partitioning
                ((((v0 :: vs).zip class_var).filter
                  (fun pc => pc.1 ≤ bp)).map Prod.fst)
                ((((v0 :: vs).zip class_var).filter
                  (fun pc => pc.1 ≤ bp)).map Prod.snd) mp
            else []) ++
           (if 1 < (((v0 :: vs).zip class_var).filter
                (fun pc => bp < pc.1)).length then
              fuzzy_partitioning
                ((((v0 :: vs).zip class_var).filter
                  (fun pc => bp < pc.1)).map Prod.fst)
                ((((v0 :: vs).zip class_var).filter
                  (fun pc => bp < pc.1)).map Prod.snd) bp
            else []))
       else [mp, max_of (v0 :: vs)]) := by
  refine ⟨get_delta_point_eq_delta_spec _ _ _, ?_⟩
  rw [fuzzy_partitioning]
  split
  · rename_i heq
    rw [h] at heq
    cases heq
  · rename_i bp2 bwef2 btri2 heq
    rw [h] at heq
    injection heq with heq
    injection heq with h1 heq
    injection heq with h2 h3
    subst h1
    subst h2
    subst h3
    dsimp only
    rw [get_delta_point_eq_delta_spec]
    by_cases hc : weighted_fuzzy_entropy
        (get_fuzzy_triangle (v0 :: vs) [("low", mp), ("high", max_of (v0 :: vs))])
        class_var - bwef <
      (Real.logb 2 (((v0 :: vs).length : ℝ) - 1) +
        delta_spec
          (get_fuzzy_triangle (v0 :: vs) [("low", mp), ("high", max_of (v0 :: vs))])
          btri class_var) / ((v0 :: vs).length : ℝ)
    · have hnge : ¬ (weighted_fuzzy_entropy
          (get_fuzzy_triangle (v0 :: vs) [("low", mp), ("high", max_of (v0 :: vs))])
          class_var - bwef ≥
        threshold_spec (v0 :: vs).length
          (delta_spec
            (get_fuzzy_triangle (v0 :: vs) [("low", mp), ("high", max_of (v0 :: vs))])
            btri class_var)) := by
        rw [ge_iff_le, not_le]
        exact hc
      rw [if_pos hc, if_neg hnge]
    · have hge : weighted_fuzzy_entropy
          (get_fuzzy_triangle (v0 :: vs) [("low", mp), ("high", max_of (v0 :: vs))])
          class_var - bwef ≥
        threshold_spec (v0 :: vs).length
          (delta_spec
            (get_fuzzy_triangle (v0 :: vs) [("low", mp), ("high", max_of (v0 :: vs))])
            btri class_var) := le_of_not_lt hc
      rw [if_neg hc, if_pos hge]

/-- Witness for C1 on the sample `[0, 1, 2]` with labels `[0, 1, 1]`,
`min_point = 0` and the single candidate point `1`. -/
theorem c1_stopping_rule_witness :
    get_delta_point
        (get_fuzzy_triangle [(0 : ℝ), 1, 2] [("low", 0), ("high", max_of [(0 : ℝ), 1, 2])])
        (get_fuzzy_triangle [(0 : ℝ), 1, 2]
          [("low", 0), ("mid", 1), ("high", max_of [(0 : ℝ), 1, 2])]) [0, 1, 1] =
      delta_spec
        (get_fuzzy_triangle [(0 : ℝ), 1, 2] [("low", 0), ("high", max_of [(0 : ℝ), 1, 2])])
        (get_fuzzy_triangle [(0 : ℝ), 1, 2]
          [("low", 0), ("mid", 1), ("high", max_of [(0 : ℝ), 1, 2])]) [0, 1, 1] ∧
    fuzzy_partitioning [(0 : ℝ), 1, 2] [0, 1, 1] 0 =
      (if weighted_fuzzy_entropy
            (get_fuzzy_triangle [(0 : ℝ), 1, 2]
              [("low", 0), ("high", max_of [(0 : ℝ), 1, 2])]) [0, 1, 1] -
          weighted_fuzzy_entropy
            (get_fuzzy_triangle [(0 : ℝ), 1, 2]
              [("low", 0), ("mid", 1), ("high", max_of [(0 : ℝ), 1, 2])]) [0, 1, 1] ≥
          threshold_spec [(0 : ℝ), 1, 2].length
            (delta_spec
              (get_fuzzy_triangle [(0 : ℝ), 1, 2]
                [("low", 0), ("high", max_of [(0 : ℝ), 1, 2])])
              (get_fuzzy_triangle [(0 : ℝ), 1, 2]
                [("low", 0), ("mid", 1), ("high", max_of [(0 : ℝ), 1, 2])])
              [0, 1, 1]) then
        np_unique
          ((if 1 < ((([(0 : ℝ), 1, 2]).zip [0, 1, 1]).filter
                (fun pc => pc.1 ≤ 1)).length then
              fuzzy_partitioning
                (((([(0 : ℝ), 1, 2]).zip [0, 1, 1]).filter
                  (fun pc => pc.1 ≤ 1)).map Prod.fst)
                (((([(0 : ℝ), 1, 2]).zip [0, 1, 1]).filter
                  (fun pc => pc.1 ≤ 1)).map Prod.snd) 0
            else []) ++
           (if 1 < ((([(0 : ℝ), 1, 2]).zip [0, 1, 1]).filter
                (fun pc => 1 < pc.1)).length then
              fuzzy_partitioning
                (((([(0 : ℝ), 1, 2]).zip [0, 1, 1]).filter
                  (fun pc => 1 < pc.1)).map Prod.fst)
                (((([(0 : ℝ), 1, 2]).zip [0, 1, 1]).filter
                  (fun pc => 1 < pc.1)).map Prod.snd) 1
            else []))
       else [0, max_of [(0 : ℝ), 1, 2]]) := by
  apply c1_stopping_rule 0 [1, 2] [0, 1, 1] 0 1
  rw [show max_of [(0 : ℝ), 1, 2] = 2 by norm_num [max_of]]
  unfold best_split
  have hf : List.filter (fun p => decide (p ≠ 0 ∧ p ≠ 2)) [(0 : ℝ), 1, 2] = [1] := by
    norm_num [List.filter]
  rw [hf]
  rfl

end ClaimTheorems

section DictLemmas

/-- First-occurrence order of the keys fed to a Python dict. -/
def firstOccur (cs : List String) : List String :=
  cs.foldl (fun ks c => if c ∈ ks then ks else ks ++ [c]) []

/-- Accumulated (summed) value of a key over a list of (key, value)
pairs. -/
def scoreOf (acts : List (String × ℚ)) (c : String) : ℚ :=
  ((acts.filter (fun a => a.1 = c)).map Prod.snd).sum

/-- Running maximum (with floor `0`) of a key over a list of
(key, value) pairs. -/
def mscoreOf (acts : List (String × ℚ)) (c : String) : ℚ :=
  ((acts.filter (fun a => a.1 = c)).map Prod.snd).foldl max 0

theorem firstOccur_step_mem :
    ∀ (cs : List String) (acc : List String) (x : String),
      x ∈ cs.foldl (fun ks c => if c ∈ ks then ks else ks ++ [c]) acc ↔
        x ∈ acc ∨ x ∈ cs
  | [], acc, x => by simp
  | c :: rest, acc, x => by
      rw [List.foldl_cons, firstOccur_step_mem rest _ x, List.mem_cons]
      by_cases hc : c ∈ acc
      · rw [if_pos hc]
        constructor
        · rintro (h | h)
          · exact Or.inl h
          · exact Or.inr (Or.inr h)
        · rintro (h | h | h)
          · exact Or.inl h
          · exact Or.inl (by rw [h]; exact hc)
          · exact Or.inr h
      · rw [if_neg hc, List.mem_append, List.mem_singleton]
        tauto

theorem mem_firstOccur {cs : List String} {x : String} :
    x ∈ firstOccur cs ↔ x ∈ cs := by
  rw [firstOccur, firstOccur_step_mem]
  simp

theorem firstOccur_step_nodup :
    ∀ (cs : List String) (acc : List String), acc.Nodup →
      (cs.foldl (fun ks c => if c ∈ ks then ks else ks ++ [c]) acc).Nodup
  | [], _, h => h
  | c :: rest, acc, h => by
      rw [List.foldl_cons]
      by_cases hc : c ∈ acc
      · rw [if_pos hc]
        exact firstOccur_step_nodup rest acc h
      · rw [if_neg hc]
        exact firstOccur_step_nodup rest _ (by simp [List.nodup_append, h, hc])

theorem firstOccur_nodup (cs : List String) : (firstOccur cs).Nodup :=
  firstOccur_step_nodup cs [] List.nodup_nil

theorem firstOccur_append_singleton (cs : List String) (c : String) :
    firstOccur (cs ++ [c]) =
      if c ∈ firstOccur cs then firstOccur cs else firstOccur cs ++ [c] := by
  unfold firstOccur
  rw [List.foldl_append]
  rfl

theorem scoreOf_append_singleton (acts : List (String × ℚ)) (a : String × ℚ)
    (c : String) :
    scoreOf (acts ++ [a]) c =
      scoreOf acts c + (if a.1 = c then a.2 else 0) := by
  unfold scoreOf
  rw [List.filter_append, List.map_append, List.sum_append]
  by_cases h : a.1 = c
  · simp [List.filter, h]
  · simp [List.filter, h]

theorem mscoreOf_append_singleton (acts : List (String × ℚ)) (a : String × ℚ)
    (c : String) :
    mscoreOf (acts ++ [a]) c =
      if a.1 = c then max (mscoreOf acts c) a.2 else mscoreOf acts c := by
  unfold mscoreOf
  rw [List.filter_append, List.map_append, List.foldl_append]
  by_cases h : a.1 = c
  · simp [List.filter, h]
  · simp [List.filter, h]

theorem scoreOf_of_not_mem {acts : List (String × ℚ)} {c : String}
    (h : c ∉ acts.map Prod.fst) : scoreOf acts c = 0 := by
  unfold scoreOf
  rw [List.filter_eq_nil_iff.mpr, List.map_nil, List.sum_nil]
  intro a ha
  simp only [decide_eq_true_eq]
  intro hc
  exact h (List.mem_map.mpr ⟨a, ha, hc⟩)

theorem mscoreOf_of_not_mem {acts : List (String × ℚ)} {c : String}
    (h : c ∉ acts.map Prod.fst) : mscoreOf acts c = 0 := by
  unfold mscoreOf
  rw [List.filter_eq_nil_iff.mpr, List.map_nil, List.foldl_nil]
  intro a ha
  simp only [decide_eq_true_eq]
  intro hc
  exact h (List.mem_map.mpr ⟨a, ha, hc⟩)

theorem accumulate_mem_key (s : String → ℚ) (k : String) (v : ℚ) :
    ∀ (fo : List String), fo.Nodup → k ∈ fo →
      accumulate (fo.map (fun c => (c, s c))) k v =
        fo.map (fun c => (c, if c = k then s c + v else s c))
  | [], _, hk => absurd hk (List.not_mem_nil k)
  | f :: rest, hnd, hk => by
      simp only [List.map_cons, accumulate]
      by_cases hf : f = k
      · rw [if_pos hf, if_pos hf]
        congr 1
        apply List.map_congr_left
        intro c hc
        have : c ≠ k := by
          intro hck
          rw [List.nodup_cons] at hnd
          apply hnd.1
          rw [hf, ← hck]
          exact hc
        rw [if_neg this]
      · rw [if_neg hf, if_neg hf]
        congr 1
        exact accumulate_mem_key s k v rest (List.nodup_cons.mp hnd).2
          (by rcases List.mem_cons.mp hk with h | h
              · exact absurd h.symm hf
              · exact h)

theorem accumulate_not_mem_key (s : String → ℚ) (k : String) (v : ℚ) :
    ∀ (fo : List String), k ∉ fo →
      accumulate (fo.map (fun c => (c, s c))) k v =
        fo.map (fun c => (c, s c)) ++ [(k, v)]
  | [], _ => rfl
  | f :: rest, hk => by
      simp only [List.map_cons, accumulate]
      rw [if_neg (fun hf => hk (by rw [← hf]; exact List.mem_cons_self f rest))]
      rw [accumulate_not_mem_key s k v rest (fun h => hk (List.mem_cons_of_mem f h))]
      rfl

theorem upsertMax_mem_key (s : String → ℚ) (k : String) (v : ℚ) :
    ∀ (fo : List String), fo.Nodup → k ∈ fo →
      upsertMax (fo.map (fun c => (c, s c))) k v =
        fo.map (fun c => (c, if c = k then max (s c) v else s c))
  | [], _, hk => absurd hk (List.not_mem_nil k)
  | f :: rest, hnd, hk => by
      simp only [List.map_cons, upsertMax]
      by_cases hf : f = k
      · rw [if_pos hf, if_pos hf]
        congr 1
        apply List.map_congr_left
        intro c hc
        have : c ≠ k := by
          intro hck
          rw [List.nodup_cons] at hnd
          apply hnd.1
          rw [hf, ← hck]
          exact hc
        rw [if_neg this]
      · rw [if_neg hf, if_neg hf]
        congr 1
        exact upsertMax_mem_key s k v rest (List.nodup_cons.mp hnd).2
          (by rcases List.mem_cons.mp hk with h | h
              · exact absurd h.symm hf
              · exact h)

theorem upsertMax_not_mem_key (s : String → ℚ) (k : String) (v : ℚ) :
    ∀ (fo : List String), k ∉ fo →
      upsertMax (fo.map (fun c => (c, s c))) k v =
        fo.map (fun c => (c, s c)) ++ [(k, max 0 v)]
  | [], _ => rfl
  | f :: rest, hk => by
      simp only [List.map_cons, upsertMax]
      rw [if_neg (fun hf => hk (by rw [← hf]; exact List.mem_cons_self f rest))]
      rw [upsertMax_not_mem_key s k v rest (fun h => hk (List.mem_cons_of_mem f h))]
      rfl

/-- The accumulating fold of `weighted_vote` and `_aggregated_vote`
builds exactly the dict whose keys are the pair keys in first-occurrence
order and whose values are the per-key sums. -/
theorem foldl_accumulate_repr (acts : List (String × ℚ)) :
    acts.foldl (fun acc cv => accumulate acc cv.1 cv.2) [] =
      (firstOccur (acts.map Prod.fst)).map (fun c => (c, scoreOf acts c)) := by
  induction acts using List.reverseRecOn with
  | nil => rfl
  | append_singleton as a ih =>
    rw [List.foldl_append, List.foldl_cons, List.foldl_nil, ih, List.map_append]
    rw [List.map_singleton, firstOccur_append_singleton]
    by_cases hmem : a.1 ∈ firstOccur (as.map Prod.fst)
    · rw [if_pos hmem,
        accumulate_mem_key (scoreOf as) a.1 a.2 _ (firstOccur_nodup _) hmem]
      apply List.map_congr_left
      intro c _
      rw [scoreOf_append_singleton]
      by_cases hc : c = a.1
      · rw [if_pos hc, if_pos hc.symm]
      · rw [if_neg hc, if_neg (fun h => hc h.symm), add_zero]
    · rw [if_neg hmem,
        accumulate_not_mem_key (scoreOf as) a.1 a.2 _ hmem, List.map_append]
      congr 1
      · apply List.map_congr_left
        intro c hc
        rw [scoreOf_append_singleton,
          if_neg (fun h => hmem (by rw [h]; exact hc)), add_zero]
      · rw [List.map_singleton]
        rw [scoreOf_append_singleton, if_pos rfl,
          scoreOf_of_not_mem (fun h => hmem (mem_firstOccur.mpr h)), zero_add]

/-- The max-updating fold of `_maximum_matching` builds exactly the dict
whose keys are the pair keys in first-occurrence order and whose values
are the per-key running maxima floored at `0`. -/
theorem foldl_upsertMax_repr (acts : List (String × ℚ)) :
    acts.foldl (fun acc cv => upsertMax acc cv.1 cv.2) [] =
      (firstOccur (acts.map Prod.fst)).map (fun c => (c, mscoreOf acts c)) := by
  induction acts using List.reverseRecOn with
  | nil => rfl
  | append_singleton as a ih =>
    rw [List.foldl_append, List.foldl_cons, List.foldl_nil, ih, List.map_append]
    rw [List.map_singleton, firstOccur_append_singleton]
    by_cases hmem : a.1 ∈ firstOccur (as.map Prod.fst)
    · rw [if_pos hmem,
        upsertMax_mem_key (mscoreOf as) a.1 a.2 _ (firstOccur_nodup _) hmem]
      apply List.map_congr_left
      intro c _
      rw [mscoreOf_append_singleton]
      by_cases hc : c = a.1
      · rw [if_pos hc, if_pos hc.symm]
      · rw [if_neg hc, if_neg (fun h => hc h.symm)]
    · rw [if_neg hmem,
        upsertMax_not_mem_key (mscoreOf as) a.1 a.2 _ hmem, List.map_append]
      congr 1
      · apply List.map_congr_left
        intro c hc
        rw [mscoreOf_append_singleton,
          if_neg (fun h => hmem (by rw [h]; exact hc))]
      · rw [List.map_singleton]
        rw [mscoreOf_append_singleton, if_pos rfl,
          mscoreOf_of_not_mem (fun h => hmem (mem_firstOccur.mpr h))]

theorem foldl_max_max {α : Type} [LinearOrder α] :
    ∀ (l : List α) (a b : α), l.foldl max (max a b) = max a (l.foldl max b)
  | [], _, _ => rfl
  | x :: t, a, b => by
      rw [List.foldl_cons, max_assoc, foldl_max_max t a (max b x), List.foldl_cons]

theorem scoreOf_append (l1 l2 : List (String × ℚ)) (c : String) :
    scoreOf (l1 ++ l2) c = scoreOf l1 c + scoreOf l2 c := by
  unfold scoreOf
  rw [List.filter_append, List.map_append, List.sum_append]

theorem mscoreOf_nonneg (l : List (String × ℚ)) (c : String) : 0 ≤ mscoreOf l c :=
  (foldl_max_le _ 0).1

theorem foldl_max_zero_split (l : List ℚ) (a : ℚ)
    (ha : 0 ≤ a) : l.foldl max a = max a (l.foldl max 0) := by
  conv_lhs => rw [(max_eq_left ha).symm]
  rw [foldl_max_max]

theorem mscoreOf_append (l1 l2 : List (String × ℚ)) (c : String) :
    mscoreOf (l1 ++ l2) c = max (mscoreOf l1 c) (mscoreOf l2 c) := by
  unfold mscoreOf
  rw [List.filter_append, List.map_append, List.foldl_append,
    foldl_max_zero_split _ _ (foldl_max_le _ 0).1]

/-- The value of one leaf for a class key: `leaf[0][key] * leaf[1]` when
the key is present, `0` otherwise. -/
def leafContribution (leaf : List (String × ℚ) × ℚ) (c : String) : ℚ :=
  match List.lookup c leaf.1 with
  | none => 0
  | some v => v * leaf.2

theorem keys_of_mapped_leaf (leaf : List (String × ℚ)) (w : ℚ) :
    (leaf.map (fun kv => (kv.1, kv.2 * w))).map Prod.fst = leaf.map Prod.fst := by
  rw [List.map_map]
  rfl

theorem scoreOf_mapped_leaf (w : ℚ) (c : String) :
    ∀ (leaf : List (String × ℚ)), (leaf.map Prod.fst).Nodup →
      scoreOf (leaf.map (fun kv => (kv.1, kv.2 * w))) c =
        leafContribution (leaf, w) c
  | [], _ => rfl
  | kv :: rest, hnd => by
      rw [List.map_cons] at hnd ⊢
      rw [List.nodup_cons] at hnd
      unfold scoreOf leafContribution
      rw [List.filter_cons, List.lookup]
      by_cases hk : kv.1 = c
      · rw [if_pos (by simpa using hk)]
        have hbeq : (c == kv.1) = true := by simp [hk]
        rw [hbeq]
        simp only [List.map_cons, List.sum_cons]
        have hrest : scoreOf (rest.map (fun kv => (kv.1, kv.2 * w))) c = 0 := by
          apply scoreOf_of_not_mem
          rw [keys_of_mapped_leaf]
          intro hcmem
          exact hnd.1 (hk ▸ hcmem)
        unfold scoreOf at hrest
        rw [hrest, add_zero]
      · rw [if_neg (by simpa using hk)]
        have hbeq : (c == kv.1) = false := by
          simp only [beq_eq_false_iff_ne, ne_eq]
          exact fun hc => hk hc.symm
        rw [hbeq]
        have := scoreOf_mapped_leaf w c rest hnd.2
        unfold scoreOf leafContribution at this
        exact this

theorem mscoreOf_mapped_leaf (w : ℚ) (c : String) :
    ∀ (leaf : List (String × ℚ)), (leaf.map Prod.fst).Nodup →
      mscoreOf (leaf.map (fun kv => (kv.1, kv.2 * w))) c =
        max 0 (leafContribution (leaf, w) c)
  | [], _ => by simp [mscoreOf, leafContribution, List.lookup]
  | kv :: rest, hnd => by
      rw [List.map_cons] at hnd ⊢
      rw [List.nodup_cons] at hnd
      unfold mscoreOf leafContribution
      rw [List.filter_cons, List.lookup]
      by_cases hk : kv.1 = c
      · rw [if_pos (by simpa using hk)]
        have hbeq : (c == kv.1) = true := by simp [hk]
        rw [hbeq]
        simp only [List.map_cons, List.foldl_cons]
        have hrest : ((rest.map (fun kv => (kv.1, kv.2 * w))).filter
            (fun a => a.1 = c)).map Prod.snd = [] := by
          rw [List.map_eq_nil_iff, List.filter_eq_nil_iff]
          intro a ha
          simp only [decide_eq_true_eq]
          intro hc
          apply hnd.1
          rw [← keys_of_mapped_leaf rest w, hk]
          exact List.mem_map.mpr ⟨a, ha, hc⟩
        rw [hrest, List.foldl_nil, max_comm]
      · rw [if_neg (by simpa using hk)]
        have hbeq : (c == kv.1) = false := by
          simp only [beq_eq_false_iff_ne, ne_eq]
          exact fun hc => hk hc.symm
        rw [hbeq]
        have := mscoreOf_mapped_leaf w c rest hnd.2
        unfold mscoreOf leafContribution at this
        exact this

theorem nested_foldl_eq_flat
    (f : List (String × ℚ) → String → ℚ → List (String × ℚ)) :
    ∀ (leaves : List (List (String × ℚ) × ℚ)) (acc : List (String × ℚ)),
      leaves.foldl
        (fun agg leaf => leaf.1.foldl (fun a kv => f a kv.1 (kv.2 * leaf.2)) agg)
        acc =
      (leaves.flatMap (fun leaf =>
        leaf.1.map (fun kv => (kv.1, kv.2 * leaf.2)))).foldl
        (fun a cv => f a cv.1 cv.2) acc
  | [], _ => rfl
  | leaf :: rest, acc => by
      rw [List.foldl_cons, List.flatMap_cons, List.foldl_append,
        nested_foldl_eq_flat f rest, List.foldl_map]

theorem flat_keys (leaves : List (List (String × ℚ) × ℚ)) :
    (leaves.flatMap (fun leaf =>
      leaf.1.map (fun kv => (kv.1, kv.2 * leaf.2)))).map Prod.fst =
      leaves.flatMap (fun leaf => leaf.1.map Prod.fst) := by
  rw [List.map_flatMap]
  have hfun : (fun (leaf : List (String × ℚ) × ℚ) =>
      (leaf.1.map (fun kv => (kv.1, kv.2 * leaf.2))).map Prod.fst) =
      fun leaf => leaf.1.map Prod.fst :=
    funext (fun leaf => keys_of_mapped_leaf leaf.1 leaf.2)
  rw [hfun]

theorem scoreOf_flat (c : String) :
    ∀ (leaves : List (List (String × ℚ) × ℚ)),
      (∀ leaf ∈ leaves, (leaf.1.map Prod.fst).Nodup) →
      scoreOf (leaves.flatMap (fun leaf =>
          leaf.1.map (fun kv => (kv.1, kv.2 * leaf.2)))) c =
        (leaves.map (fun leaf => leafContribution leaf c)).sum
  | [], _ => rfl
  | leaf :: rest, hnd => by
      rw [List.flatMap_cons, scoreOf_append, List.map_cons, List.sum_cons,
        scoreOf_mapped_leaf leaf.2 c leaf.1 (hnd leaf (List.mem_cons_self leaf rest)),
        scoreOf_flat c rest (fun l hl => hnd l (List.mem_cons_of_mem leaf hl))]

theorem mscoreOf_flat (c : String) :
    ∀ (leaves : List (List (String × ℚ) × ℚ)),
      (∀ leaf ∈ leaves, (leaf.1.map Prod.fst).Nodup) →
      mscoreOf (leaves.flatMap (fun leaf =>
          leaf.1.map (fun kv => (kv.1, kv.2 * leaf.2)))) c =
        (leaves.map (fun leaf => leafContribution leaf c)).foldl max 0
  | [], _ => rfl
  | leaf :: rest, hnd => by
      rw [List.flatMap_cons, mscoreOf_append, List.map_cons, List.foldl_cons,
        mscoreOf_mapped_leaf leaf.2 c leaf.1 (hnd leaf (List.mem_cons_self leaf rest)),
        mscoreOf_flat c rest (fun l hl => hnd l (List.mem_cons_of_mem leaf hl)),
        foldl_max_zero_split _ _ (le_max_left 0 _), max_comm (0 : ℚ)]

end DictLemmas

section ClaimTheoremsVoting

/-- C9: `_aggregated_vote` maps every class key occurring in some leaf
(in first-occurrence order) to the sum over leaves of
`class_weight_mapping[key] * leaf_activation_weight`, while
`_maximum_matching` maps it to the maximum of those products floored at
`0`; on the spec's concrete example they yield
`{A: 0.45, B: 1.05}` and `{A: 0.25, B: 0.8}`. -/
theorem c9_leaf_aggregators :
    (∀ leaves : List (List (String × ℚ) × ℚ),
      (∀ leaf ∈ leaves, (leaf.1.map Prod.fst).Nodup) →
      aggregated_vote leaves =
        (firstOccur (leaves.flatMap (fun leaf => leaf.1.map Prod.fst))).map
          (fun c => (c, (leaves.map (fun leaf => leafContribution leaf c)).sum)) ∧
      maximum_matching leaves =
        (firstOccur (leaves.flatMap (fun leaf => leaf.1.map Prod.fst))).map
          (fun c => (c, (leaves.map (fun leaf => leafContribution leaf c)).foldl max 0))) ∧
    aggregated_vote [([("A", 1/5), ("B", 4/5)], 1), ([("A", 1/2), ("B", 1/2)], 1/2)] =
      [("A", 9/20), ("B", 21/20)] ∧
    maximum_matching [([("A", 1/5), ("B", 4/5)], 1), ([("A", 1/2), ("B", 1/2)], 1/2)] =
      [("A", 1/4), ("B", 4/5)] := by
  refine ⟨?_, ?_, ?_⟩
  · intro leaves hnd
    constructor
    · unfold aggregated_vote
      rw [nested_foldl_eq_flat accumulate leaves [], foldl_accumulate_repr, flat_keys]
      apply List.map_congr_left
      intro c _
      rw [scoreOf_flat c leaves hnd]
    · unfold maximum_matching
      rw [nested_foldl_eq_flat upsertMax leaves [], foldl_upsertMax_repr, flat_keys]
      apply List.map_congr_left
      intro c _
      rw [mscoreOf_flat c leaves hnd]
  · norm_num [aggregated_vote, accumulate]
    decide
  · norm_num [maximum_matching, upsertMax]

/-- Witness for C9: the general characterization applied to the spec's
concrete leaf list. -/
theorem c9_leaf_aggregators_witness :
    aggregated_vote [([("A", 1/5), ("B", 4/5)], 1), ([("A", 1/2), ("B", 1/2)], 1/2)] =
      (firstOccur ([([("A", (1 : ℚ)/5), ("B", 4/5)], (1 : ℚ)),
          ([("A", 1/2), ("B", 1/2)], 1/2)].flatMap
            (fun leaf => leaf.1.map Prod.fst))).map
        (fun c => (c,
          ([([("A", (1 : ℚ)/5), ("B", 4/5)], (1 : ℚ)),
            ([("A", 1/2), ("B", 1/2)], 1/2)].map
              (fun leaf => leafContribution leaf c)).sum)) :=
  ((c9_leaf_aggregators.1
    [([("A", 1/5), ("B", 4/5)], 1), ([("A", 1/2), ("B", 1/2)], 1/2)]
    (by decide)).1)

end ClaimTheoremsVoting

section ArgmaxLemmas

theorem foldl_pymax_spec {β : Type} (key : β → ℚ) :
    ∀ (l : List β) (init : β),
      (l.foldl (pymaxStep key) init = init ∧ ∀ x ∈ l, key x ≤ key init) ∨
      ∃ l1 l2, l = l1 ++ (l.foldl (pymaxStep key) init) :: l2 ∧
        key init < key (l.foldl (pymaxStep key) init) ∧
        (∀ x ∈ l1, key x < key (l.foldl (pymaxStep key) init)) ∧
        (∀ x ∈ l2, key x ≤ key (l.foldl (pymaxStep key) init))
  | [], init => Or.inl ⟨rfl, by simp⟩
  | x :: xs, init => by
      rw [List.foldl_cons]
      by_cases hx : key x > key init
      · have hstep : pymaxStep key init x = x := if_pos hx
        rw [hstep]
        rcases foldl_pymax_spec key xs x with ⟨heq, hall⟩ | ⟨l1, l2, hsplit, hlt, h1, h2⟩
        · refine Or.inr ⟨[], xs, ?_, ?_, by simp, ?_⟩
          · rw [heq, List.nil_append]
          · rw [heq]
            exact hx
          · intro y hy
            rw [heq]
            exact hall y hy
        · refine Or.inr ⟨x :: l1, l2, ?_, ?_, ?_, h2⟩
          · rw [List.cons_append, ← hsplit]
          · exact lt_trans hx hlt
          · intro y hy
            rcases List.mem_cons.mp hy with h | h
            · exact h ▸ hlt
            · exact h1 y h
      · have hstep : pymaxStep key init x = init := if_neg hx
        rw [hstep]
        rcases foldl_pymax_spec key xs init with ⟨heq, hall⟩ | ⟨l1, l2, hsplit, hlt, h1, h2⟩
        · refine Or.inl ⟨heq, ?_⟩
          intro y hy
          rcases List.mem_cons.mp hy with h | h
          · exact h ▸ le_of_not_lt hx
          · exact hall y h
        · refine Or.inr ⟨x :: l1, l2, ?_, hlt, ?_, h2⟩
          · rw [List.cons_append, ← hsplit]
          · intro y hy
            rcases List.mem_cons.mp hy with h | h
            · exact h ▸ lt_of_le_of_lt (le_of_not_lt hx) hlt
            · exact h1 y h

theorem map_eq_append_cons {β γ : Type} (g : β → γ) :
    ∀ (fo : List β) (l1 : List γ) (p : γ) (l2 : List γ),
      fo.map g = l1 ++ p :: l2 →
      ∃ fo1 c fo2, fo = fo1 ++ c :: fo2 ∧ l1 = fo1.map g ∧ p = g c ∧ l2 = fo2.map g
  | [], l1, p, l2, h => by
      rw [List.map_nil] at h
      exact absurd h.symm (List.append_ne_nil_of_right_ne_nil l1 (List.cons_ne_nil p l2))
  | b :: bs, [], p, l2, h => by
      rw [List.map_cons, List.nil_append] at h
      injection h with h1 h2
      exact ⟨[], b, bs, rfl, rfl, h1.symm, h2.symm⟩
  | b :: bs, q :: l1, p, l2, h => by
      rw [List.map_cons, List.cons_append] at h
      injection h with h1 h2
      obtain ⟨fo1, c, fo2, hfo, hl1, hp, hl2⟩ := map_eq_append_cons g bs l1 p l2 h2
      exact ⟨b :: fo1, c, fo2, by rw [List.cons_append, ← hfo],
        by rw [List.map_cons, hl1, h1], hp, hl2⟩

theorem mapM_option_length {β γ : Type} (f : β → Option γ) :
    ∀ (l : List β) (res : List γ), l.mapM f = some res → res.length = l.length
  | [], res, h => by
      simp only [List.mapM_nil, pure, Option.some_inj] at h
      rw [← h]
      rfl
  | x :: xs, res, h => by
      rw [List.mapM_cons] at h
      cases hfx : f x with
      | none => rw [hfx] at h; cases h
      | some d =>
        rw [hfx] at h
        cases hxs : xs.mapM f with
        | none => rw [hxs] at h; cases h
        | some ys =>
          rw [hxs] at h
          simp only [bind, Option.bind, pure, Option.some_inj] at h
          rw [← h, List.length_cons, mapM_option_length f xs ys hxs]
          rfl

theorem matching_isSome_of_ne_nil (r : Rule) (m : InstanceMembership)
    (h : r.antecedent ≠ []) : (r.matching m minTnorm).isSome := by
  unfold Rule.matching
  cases hm : r.antecedent.mapM (fun fv => lookupDegree m fv.1 fv.2) with
  | none => rfl
  | some ds =>
    cases ds with
    | nil =>
      have hlen := mapM_option_length _ r.antecedent [] hm
      rw [List.length_nil] at hlen
      exact absurd (List.eq_nil_of_length_eq_zero hlen.symm) h
    | cons d rest => rfl

theorem firstOccur_ne_nil {cs : List String} (h : cs ≠ []) : firstOccur cs ≠ [] := by
  match cs with
  | [] => exact absurd rfl h
  | c :: rest =>
    intro hnil
    have : c ∈ firstOccur (c :: rest) := mem_firstOccur.mpr (List.mem_cons_self c rest)
    rw [hnil] at this
    exact absurd this (List.not_mem_nil c)

end ArgmaxLemmas

section ClaimC5

/-- Activation of one rule on an instance: `matching * weight` (the
degree of a defined matching; `0` stands in for the unreachable error
case when the antecedent is non-empty). -/
def ruleActivation (r : Rule) (m : InstanceMembership) : ℚ :=
  (r.matching m minTnorm).getD 0 * r.weight

/-- C5 counterexample: a non-empty rule list containing a rule with an
empty antecedent makes `weighted_vote` raise (the `ValueError` of
`min([])` propagates), so no consequent is returned at all. -/
theorem c5_counterexample :
    Rule.weighted_vote [⟨[], "A", 1⟩] [] = none ∧
      ([Rule.mk [] "A" 1] : List Rule) ≠ [] :=
  ⟨rfl, by simp⟩

/-- C5 amended: for every non-empty rule list in which every rule has a
non-empty antecedent (so every matching is defined), `weighted_vote`
accumulates `activation = matching * weight` per consequent and returns
the consequent of maximal accumulated sum; among tied consequents, the
one whose first occurrence in iteration order comes first wins (every
consequent placed before the winner scores strictly less). -/
theorem c5_weighted_vote (rules : List Rule) (m : InstanceMembership)
    (hne : rules ≠ []) (hr : ∀ r ∈ rules, r.antecedent ≠ []) :
    ∃ l1 c l2,
      firstOccur (rules.map Rule.consequent) = l1 ++ c :: l2 ∧
      Rule.weighted_vote rules m = some c ∧
      (∀ c2 ∈ l1,
        scoreOf (rules.map (fun r => (r.consequent, ruleActivation r m))) c2 <
          scoreOf (rules.map (fun r => (r.consequent, ruleActivation r m))) c) ∧
      (∀ c2 ∈ l2,
        scoreOf (rules.map (fun r => (r.consequent, ruleActivation r m))) c2 ≤
          scoreOf (rules.map (fun r => (r.consequent, ruleActivation r m))) c) ∧
      (∀ r ∈ rules,
        scoreOf (rules.map (fun r => (r.consequent, ruleActivation r m)))
            r.consequent ≤
          scoreOf (rules.map (fun r => (r.consequent, ruleActivation r m))) c) := by
  have hacts : rules.mapM (fun r =>
      (r.matching m minTnorm).map (fun d => (r.consequent, d * r.weight))) =
      some (rules.map (fun r => (r.consequent, ruleActivation r m))) := by
    apply mapM_option_congr
    intro r hrr
    show (r.matching m minTnorm).map (fun d => (r.consequent, d * r.weight)) =
      some (r.consequent, ruleActivation r m)
    cases hms : r.matching m minTnorm with
    | none =>
      have hsome := matching_isSome_of_ne_nil r m (hr r hrr)
      rw [hms] at hsome
      cases hsome
    | some d =>
      unfold ruleActivation
      rw [hms]
      rfl
  have hkeys : (rules.map (fun r => (r.consequent, ruleActivation r m))).map
      Prod.fst = rules.map Rule.consequent := by
    rw [List.map_map]
    rfl
  set acts := rules.map (fun r => (r.consequent, ruleActivation r m)) with hacts_def
  have hvote : Rule.weighted_vote rules m =
      argmaxFirst ((firstOccur (rules.map Rule.consequent)).map
        (fun c => (c, scoreOf acts c))) := by
    unfold Rule.weighted_vote
    rw [hacts]
    show argmaxFirst (acts.foldl (fun acc cv => accumulate acc cv.1 cv.2) []) = _
    rw [foldl_accumulate_repr, hacts_def, hkeys]
  have hfone : firstOccur (rules.map Rule.consequent) ≠ [] :=
    firstOccur_ne_nil (by
      intro hnil
      rw [List.map_eq_nil_iff] at hnil
      exact hne hnil)
  have hcover : ∀ r ∈ rules, r.consequent ∈ firstOccur (rules.map Rule.consequent) :=
    fun r hrr => mem_firstOccur.mpr (List.mem_map.mpr ⟨r, hrr, rfl⟩)
  match hfo : firstOccur (rules.map Rule.consequent) with
  | [] => exact absurd hfo hfone
  | c0 :: fot =>
    rw [hfo] at hvote hcover
    rw [List.map_cons] at hvote
    have hvote2 : Rule.weighted_vote rules m =
        some ((List.foldl (pymaxStep Prod.snd) (c0, scoreOf acts c0)
          (fot.map (fun c => (c, scoreOf acts c)))).1) := hvote
    rcases foldl_pymax_spec Prod.snd (fot.map (fun c => (c, scoreOf acts c)))
        (c0, scoreOf acts c0) with ⟨heq, hall⟩ | ⟨L1, L2, hsplit, hlt, h1, h2⟩
    · have hle2 : ∀ c2 ∈ fot, scoreOf acts c2 ≤ scoreOf acts c0 := by
        intro c2 hc2
        exact hall (c2, scoreOf acts c2) (List.mem_map.mpr ⟨c2, hc2, rfl⟩)
      refine ⟨[], c0, fot, rfl, by rw [hvote2, heq], by simp, hle2, ?_⟩
      intro r hrr
      rcases List.mem_cons.mp (hcover r hrr) with hm | hm
      · rw [hm]
      · exact hle2 _ hm
    · obtain ⟨fo1, c, fo2, hfot, hL1, hp, hL2⟩ :=
        map_eq_append_cons (fun c => (c, scoreOf acts c)) fot L1 _ L2 hsplit
      have hrfst : (List.foldl (pymaxStep Prod.snd) (c0, scoreOf acts c0)
          (fot.map (fun c => (c, scoreOf acts c)))).1 = c := by
        rw [hp]
      have hscore : (List.foldl (pymaxStep Prod.snd) (c0, scoreOf acts c0)
          (fot.map (fun c => (c, scoreOf acts c)))).2 = scoreOf acts c := by
        rw [hp]
      rw [hscore] at hlt h1 h2
      have hlt1 : ∀ c2 ∈ c0 :: fo1, scoreOf acts c2 < scoreOf acts c := by
        intro c2 hc2
        rcases List.mem_cons.mp hc2 with hm | hm
        · rw [hm]
          exact hlt
        · exact h1 (c2, scoreOf acts c2) (by
            rw [hL1]
            exact List.mem_map.mpr ⟨c2, hm, rfl⟩)
      have hle2 : ∀ c2 ∈ fo2, scoreOf acts c2 ≤ scoreOf acts c := by
        intro c2 hc2
        exact h2 (c2, scoreOf acts c2) (by
          rw [hL2]
          exact List.mem_map.mpr ⟨c2, hc2, rfl⟩)
      refine ⟨c0 :: fo1, c, fo2, by rw [hfot, List.cons_append],
        by rw [hvote2, hrfst], hlt1, hle2, ?_⟩
      intro r hrr
      have hm : r.consequent ∈ (c0 :: fo1) ++ c :: fo2 := by
        have := hcover r hrr
        rw [hfot] at this
        rw [List.cons_append]
        exact this
      rcases List.mem_append.mp hm with hm1 | hm2
      · exact le_of_lt (hlt1 _ hm1)
      · rcases List.mem_cons.mp hm2 with hmc | hmc
        · rw [hmc]
        · exact hle2 _ hmc

/-- Witness for C5 amended on the spec's two-rule example. -/
theorem c5_weighted_vote_witness :
    ∃ l1 c l2,
      firstOccur ([Rule.mk [("x", "lo")] "A" 1,
        Rule.mk [("x", "hi")] "B" 1].map Rule.consequent) = l1 ++ c :: l2 ∧
      Rule.weighted_vote [Rule.mk [("x", "lo")] "A" 1, Rule.mk [("x", "hi")] "B" 1]
        [("x", [("lo", 9/10), ("hi", 1/10)])] = some c ∧
      (∀ c2 ∈ l1,
        scoreOf ([Rule.mk [("x", "lo")] "A" 1, Rule.mk [("x", "hi")] "B" 1].map
          (fun r => (r.consequent,
            ruleActivation r [("x", [("lo", 9/10), ("hi", 1/10)])]))) c2 <
          scoreOf ([Rule.mk [("x", "lo")] "A" 1, Rule.mk [("x", "hi")] "B" 1].map
            (fun r => (r.consequent,
              ruleActivation r [("x", [("lo", 9/10), ("hi", 1/10)])]))) c) ∧
      (∀ c2 ∈ l2,
        scoreOf ([Rule.mk [("x", "lo")] "A" 1, Rule.mk [("x", "hi")] "B" 1].map
          (fun r => (r.consequent,
            ruleActivation r [("x", [("lo", 9/10), ("hi", 1/10)])]))) c2 ≤
          scoreOf ([Rule.mk [("x", "lo")] "A" 1, Rule.mk [("x", "hi")] "B" 1].map
            (fun r => (r.consequent,
              ruleActivation r [("x", [("lo", 9/10), ("hi", 1/10)])]))) c) ∧
      (∀ r ∈ [Rule.mk [("x", "lo")] "A" 1, Rule.mk [("x", "hi")] "B" 1],
        scoreOf ([Rule.mk [("x", "lo")] "A" 1, Rule.mk [("x", "hi")] "B" 1].map
          (fun r => (r.consequent,
            ruleActivation r [("x", [("lo", 9/10), ("hi", 1/10)])])))
            r.consequent ≤
          scoreOf ([Rule.mk [("x", "lo")] "A" 1, Rule.mk [("x", "hi")] "B" 1].map
            (fun r => (r.consequent,
              ruleActivation r [("x", [("lo", 9/10), ("hi", 1/10)])]))) c) :=
  c5_weighted_vote [Rule.mk [("x", "lo")] "A" 1, Rule.mk [("x", "hi")] "B" 1]
    [("x", [("lo", 9/10), ("hi", 1/10)])] (by simp) (by decide)

end ClaimC5

section ClaimC6

/-- Key set of the Python dict `{fv.name: fv.fuzzy_sets for fv in fvs}`. -/
def dictKeys (fvs : List FuzzyVariable) : Finset String :=
  ((pyDict (fvs.map (fun fv => (fv.name, fv.fuzzy_sets)))).map Prod.fst).toFinset

theorem maxBySet_spec (key : FuzzySet → ℚ) (d0 : FuzzySet) (dtail : List FuzzySet) :
    ∃ dfs, maxBySet key (d0 :: dtail) = some dfs ∧ dfs ∈ d0 :: dtail ∧
      ∀ fs ∈ d0 :: dtail, key fs ≤ key dfs := by
  refine ⟨dtail.foldl (pymaxStep key) d0, rfl, ?_, ?_⟩
  · rcases foldl_pymax_spec key dtail d0 with ⟨heq, _⟩ | ⟨L1, L2, hsplit, _, _, _⟩
    · rw [heq]
      exact List.mem_cons_self d0 dtail
    · refine List.mem_cons_of_mem d0 ?_
      set r := dtail.foldl (pymaxStep key) d0 with hr
      rw [hsplit]
      exact List.mem_append.mpr (Or.inr (List.mem_cons_self _ _))
  · intro fs hfs
    rcases foldl_pymax_spec key dtail d0 with ⟨heq, hall⟩ | ⟨L1, L2, hsplit, hlt, h1, h2⟩
    · rw [heq]
      rcases List.mem_cons.mp hfs with h | h
      · rw [h]
      · exact hall fs h
    · rcases List.mem_cons.mp hfs with h | h
      · rw [h]
        exact le_of_lt hlt
      · rw [hsplit] at h
        rcases List.mem_append.mp h with h | h
        · exact le_of_lt (h1 fs h)
        · rcases List.mem_cons.mp h with h | h
          · rw [h]
          · exact h2 fs h

theorem mapM_except_ok {β γ ε : Type} (f : β → Except ε γ) (R : β → γ → Prop) :
    ∀ (l : List β),
      (∀ x ∈ l, ∃ y, f x = Except.ok y ∧ R x y) →
      ∃ l2, l.mapM f = Except.ok l2 ∧ List.Forall₂ R l l2
  | [], _ => ⟨[], rfl, List.Forall₂.nil⟩
  | x :: xs, h => by
      obtain ⟨y, hfy, hR⟩ := h x (List.mem_cons_self x xs)
      obtain ⟨l2, hmap, hF⟩ := mapM_except_ok f R xs
        (fun z hz => h z (List.mem_cons_of_mem x hz))
      refine ⟨y :: l2, ?_, List.Forall₂.cons hR hF⟩
      rw [List.mapM_cons, hfy, hmap]
      rfl

theorem mapM_except_no_error {β γ ε : Type} [DecidableEq ε] (f : β → Except ε γ)
    (bad : ε) :
    ∀ (l : List β), (∀ x ∈ l, f x ≠ Except.error bad) →
      l.mapM f ≠ Except.error bad
  | [], _ => by
      intro hc
      cases hc
  | x :: xs, h => by
      rw [List.mapM_cons]
      cases hfx : f x with
      | error e =>
        intro hc
        simp only [bind, Except.bind] at hc
        injection hc with hc
        exact h x (List.mem_cons_self x xs) (by rw [hfx, hc])
      | ok y =>
        cases hxs : xs.mapM f with
        | error e =>
          intro hc
          simp only [bind, Except.bind] at hc
          injection hc with hc
          exact mapM_except_no_error f bad xs
            (fun z hz => h z (List.mem_cons_of_mem x hz)) (by rw [hxs, hc])
        | ok l2 =>
          intro hc
          simp only [bind, Except.bind, pure, Except.pure] at hc
          cases hc

theorem map_antecedent_entry_no_um (inter : FuzzySet → FuzzySet → ℚ)
    (odict ddict : List (String × List FuzzySet)) (fv : String × String) :
    map_antecedent_entry inter odict ddict fv ≠
      Except.error MapRuleError.universeMismatch := by
  unfold map_antecedent_entry
  cases h1 : odict.lookup fv.1 with
  | none => simp
  | some origin_feat =>
    cases h2 : ddict.lookup fv.1 with
    | none => simp
    | some dest_feat =>
      cases h3 : (pyDict (origin_feat.map (fun fs => (fs.name, fs)))).lookup fv.2 with
      | none => simp [h3]
      | some origin_fs =>
        cases h4 : maxBySet (fun fs => inter fs origin_fs) dest_feat with
        | none => simp [h3, h4]
        | some dest_fs => simp [h3, h4]

theorem map_antecedent_entry_ok (inter : FuzzySet → FuzzySet → ℚ)
    (odict ddict : List (String × List FuzzySet)) (fv : String × String)
    (h : ∃ osets dsets ofs,
      odict.lookup fv.1 = some osets ∧ ddict.lookup fv.1 = some dsets ∧
      (pyDict (osets.map (fun fs => (fs.name, fs)))).lookup fv.2 = some ofs ∧
      dsets ≠ []) :
    ∃ fv2, map_antecedent_entry inter odict ddict fv = Except.ok fv2 ∧
      (fv2.1 = fv.1 ∧
       ∃ osets dsets ofs dfs,
         odict.lookup fv.1 = some osets ∧ ddict.lookup fv.1 = some dsets ∧
         (pyDict (osets.map (fun fs => (fs.name, fs)))).lookup fv.2 = some ofs ∧
         dfs ∈ dsets ∧ fv2.2 = dfs.name ∧
         ∀ fs ∈ dsets, inter fs ofs ≤ inter dfs ofs) := by
  obtain ⟨osets, dsets, ofs, ho, hd, hofs, hne⟩ := h
  match dsets, hne with
  | d0 :: dtail, _ =>
    obtain ⟨dfs, hmax, hdmem, hdle⟩ := maxBySet_spec (fun fs => inter fs ofs) d0 dtail
    refine ⟨(fv.1, dfs.name), ?_, rfl, osets, d0 :: dtail, ofs, dfs,
      ho, hd, hofs, hdmem, rfl, hdle⟩
    unfold map_antecedent_entry
    simp only [ho, hd, hofs, hmax]

/-- C6 counterexample: with equal feature-name sets (`{x}` on both
sides), an antecedent value naming an existing origin fuzzy set, but an
empty destination fuzzy-set list, `map_rule_variables` raises the
`ValueError` of `max([])` instead of returning a rule. -/
theorem c6_counterexample :
    map_rule_variables (fun _ _ => 0) ⟨[("x", "a")], "c", 1⟩
        [⟨"x", [⟨"a", []⟩]⟩] [⟨"x", []⟩] = Except.error MapRuleError.emptyMax ∧
    dictKeys [⟨"x", [⟨"a", []⟩]⟩] = dictKeys [⟨"x", []⟩] ∧
    (pyDict ([FuzzySet.mk "a" []].map (fun fs => (fs.name, fs)))).lookup "a" =
      some ⟨"a", []⟩ :=
  ⟨rfl, rfl, rfl⟩

/-- C6 amended: `map_rule_variables` raises the domain-mismatch error
exactly when the feature-name sets of the two collections differ; when
they agree and every antecedent entry resolves (its feature names a
variable, its value names an origin fuzzy set of that variable, and the
destination variable has at least one fuzzy set), it returns a rule with
the same consequent and weight whose antecedent keeps each feature and
replaces each value by the name of a destination set maximizing the
intersection with the origin set. -/
theorem c6_map_rule_variables (inter : FuzzySet → FuzzySet → ℚ) (rule : Rule)
    (ofv dfv : List FuzzyVariable) :
    (map_rule_variables inter rule ofv dfv =
        Except.error MapRuleError.universeMismatch ↔ dictKeys ofv ≠ dictKeys dfv) ∧
    (dictKeys ofv = dictKeys dfv →
     (∀ fv ∈ rule.antecedent, ∃ osets dsets ofs,
        (pyDict (ofv.map (fun fv2 => (fv2.name, fv2.fuzzy_sets)))).lookup fv.1 =
          some osets ∧
        (pyDict (dfv.map (fun fv2 => (fv2.name, fv2.fuzzy_sets)))).lookup fv.1 =
          some dsets ∧
        (pyDict (osets.map (fun fs => (fs.name, fs)))).lookup fv.2 = some ofs ∧
        dsets ≠ []) →
     ∃ rule2, map_rule_variables inter rule ofv dfv = Except.ok rule2 ∧
       rule2.consequent = rule.consequent ∧ rule2.weight = rule.weight ∧
       List.Forall₂ (fun fv fv2 =>
         fv2.1 = fv.1 ∧
         ∃ osets dsets ofs dfs,
           (pyDict (ofv.map (fun fv3 => (fv3.name, fv3.fuzzy_sets)))).lookup fv.1 =
             some osets ∧
           (pyDict (dfv.map (fun fv3 => (fv3.name, fv3.fuzzy_sets)))).lookup fv.1 =
             some dsets ∧
           (pyDict (osets.map (fun fs => (fs.name, fs)))).lookup fv.2 = some ofs ∧
           dfs ∈ dsets ∧ fv2.2 = dfs.name ∧
           ∀ fs ∈ dsets, inter fs ofs ≤ inter dfs ofs)
         rule.antecedent rule2.antecedent) := by
  constructor
  · constructor
    · intro hres
      intro hkeq
      unfold map_rule_variables at hres
      rw [if_neg (by
        simp only [ne_eq, not_not]
        exact hkeq)] at hres
      revert hres
      cases hm : rule.antecedent.mapM (map_antecedent_entry inter
          (pyDict (ofv.map (fun fv => (fv.name, fv.fuzzy_sets))))
          (pyDict (dfv.map (fun fv => (fv.name, fv.fuzzy_sets))))) with
      | error e =>
        intro hres
        injection hres with hres
        exact mapM_except_no_error _ MapRuleError.universeMismatch rule.antecedent
          (fun x _ => map_antecedent_entry_no_um inter _ _ x) (by rw [hm, hres])
      | ok na =>
        intro hres
        cases hres
    · intro hkne
      unfold map_rule_variables
      rw [if_pos (by
        simp only [ne_eq]
        exact hkne)]
  · intro hkeq hres
    obtain ⟨na, hmap, hF⟩ := mapM_except_ok
      (map_antecedent_entry inter
        (pyDict (ofv.map (fun fv => (fv.name, fv.fuzzy_sets))))
        (pyDict (dfv.map (fun fv => (fv.name, fv.fuzzy_sets)))))
      (fun fv fv2 =>
        fv2.1 = fv.1 ∧
        ∃ osets dsets ofs dfs,
          (pyDict (ofv.map (fun fv3 => (fv3.name, fv3.fuzzy_sets)))).lookup fv.1 =
            some osets ∧
          (pyDict (dfv.map (fun fv3 => (fv3.name, fv3.fuzzy_sets)))).lookup fv.1 =
            some dsets ∧
          (pyDict (osets.map (fun fs => (fs.name, fs)))).lookup fv.2 = some ofs ∧
          dfs ∈ dsets ∧ fv2.2 = dfs.name ∧
          ∀ fs ∈ dsets, inter fs ofs ≤ inter dfs ofs)
      rule.antecedent
      (fun fv hfv => map_antecedent_entry_ok inter _ _ fv (hres fv hfv))
    refine ⟨⟨na, rule.consequent, rule.weight⟩, ?_, rfl, rfl, hF⟩
    unfold map_rule_variables
    rw [if_neg (by
      simp only [ne_eq, not_not]
      exact hkeq), hmap]

/-- Witness for C6: mapping the one-antecedent rule between two
single-feature variable collections selects the destination set of
larger intersection. -/
theorem c6_map_rule_variables_witness :
    (map_rule_variables (fun f g => f.memb.sum * g.memb.sum)
        ⟨[("x", "a")], "c", 1⟩
        [⟨"x", [⟨"a", [1]⟩]⟩] [⟨"x", [⟨"d1", [0]⟩, ⟨"d2", [1]⟩]⟩] =
      Except.error MapRuleError.universeMismatch ↔
      dictKeys [⟨"x", [⟨"a", [1]⟩]⟩] ≠ dictKeys [⟨"x", [⟨"d1", [0]⟩, ⟨"d2", [1]⟩]⟩]) ∧
    ∃ rule2,
      map_rule_variables (fun f g => f.memb.sum * g.memb.sum)
        ⟨[("x", "a")], "c", 1⟩
        [⟨"x", [⟨"a", [1]⟩]⟩] [⟨"x", [⟨"d1", [0]⟩, ⟨"d2", [1]⟩]⟩] =
        Except.ok rule2 ∧
      rule2.consequent = "c" ∧ rule2.weight = 1 := by
  have h := c6_map_rule_variables (fun f g => f.memb.sum * g.memb.sum)
    ⟨[("x", "a")], "c", 1⟩
    [⟨"x", [⟨"a", [1]⟩]⟩] [⟨"x", [⟨"d1", [0]⟩, ⟨"d2", [1]⟩]⟩]
  refine ⟨h.1, ?_⟩
  obtain ⟨rule2, hok, hc, hw, _⟩ := h.2 rfl (by
    intro fv hfv
    rcases List.mem_singleton.mp hfv with rfl
    exact ⟨[⟨"a", [1]⟩], [⟨"d1", [0]⟩, ⟨"d2", [1]⟩], ⟨"a", [1]⟩,
      rfl, rfl, rfl, by simp⟩)
  exact ⟨rule2, hok, hc, hw⟩

end ClaimC6

end Teacher
